import Mathlib

set_option maxRecDepth 100000

/-!
Verification of the core of a minimal content-addressed version control
system (blob/tree/commit object database, binary index with checksummed
streams, lockfile primitive, HEAD reference store).

Bytes are modelled as natural numbers below 256; byte strings as
List Nat.  SHA-1 is implemented directly on byte lists; machine
integers are Nat with explicit reduction modulo 2^32 where the source
relies on u32 wrap-around.
-/

namespace Jit

instance {ε α : Type} [DecidableEq ε] [DecidableEq α] : DecidableEq (Except ε α) :=
  fun x y =>
  match x, y with
  | .ok a, .ok b =>
    if h : a = b then isTrue (by rw [h]) else isFalse (fun hc => by cases hc; exact h rfl)
  | .error a, .error b =>
    if h : a = b then isTrue (by rw [h]) else isFalse (fun hc => by cases hc; exact h rfl)
  | .ok _, .error _ => isFalse (fun hc => by cases hc)
  | .error _, .ok _ => isFalse (fun hc => by cases hc)

/-- ASCII bytes of a string literal (all strings in the source are ASCII
where it matters). -/
def ascii (s : String) : List Nat := s.data.map Char.toNat

/-- Decimal digits of a natural number, as ASCII bytes (the way Rust
formats an unsigned integer with Display). -/
def decimalBytes (n : Nat) : List Nat :=
  (Nat.toDigits 10 n).map Char.toNat

/-- Big-endian 4-byte encoding of a u32 value. -/
def be32 (n : Nat) : List Nat :=
  [n / 16777216 % 256, n / 65536 % 256, n / 256 % 256, n % 256]

/-- Big-endian 2-byte encoding of a u16 value. -/
def be16 (n : Nat) : List Nat := [n / 256 % 256, n % 256]

/-- Big-endian 8-byte encoding of a u64 value. -/
def be64 (n : Nat) : List Nat :=
  be32 (n / 4294967296) ++ be32 (n % 4294967296)

def U32 : Nat := 4294967296

/-- Rotate a 32-bit value left by k bits. -/
def rotl (k n : Nat) : Nat :=
  ((n <<< k) % U32) ||| (n >>> (32 - k))

/-- SHA-1 message padding: append 0x80, zero bytes up to 56 mod 64, and
the message bit length as a big-endian u64. -/
def sha1Pad (msg : List Nat) : List Nat :=
  let z := (120 - ((msg.length + 1) % 64)) % 64
  msg ++ [128] ++ List.replicate z 0 ++ be64 (msg.length * 8)

/-- Group bytes into big-endian 32-bit words. -/
def bytesToWords : List Nat → List Nat
  | a :: b :: c :: d :: rest => (((a * 256 + b) * 256 + c) * 256 + d) :: bytesToWords rest
  | _ => []

/-- Split a word list into blocks of 16 words (a padded SHA-1 message
always yields a whole number of blocks; a ragged tail would become a
single short block). -/
def toBlocks : List Nat → List (List Nat)
  | a1 :: a2 :: a3 :: a4 :: a5 :: a6 :: a7 :: a8 ::
    a9 :: a10 :: a11 :: a12 :: a13 :: a14 :: a15 :: a16 :: rest =>
      [a1, a2, a3, a4, a5, a6, a7, a8, a9, a10, a11, a12, a13, a14, a15, a16]
        :: toBlocks rest
  | [] => []
  | other => [other]

/-- Extend the 16 words of a block to the 80 words of the SHA-1 message
schedule. -/
def sha1Schedule (block : List Nat) : List Nat :=
  (List.range 64).foldl
    (fun ws _ =>
      let n := ws.length
      ws ++ [rotl 1 ((ws.getD (n - 3) 0) ^^^ (ws.getD (n - 8) 0) ^^^
                     (ws.getD (n - 14) 0) ^^^ (ws.getD (n - 16) 0))])
    block

/-- One SHA-1 round: mixing function and round constant depend on the
round index. -/
def sha1Round (st : Nat × Nat × Nat × Nat × Nat) (iw : Nat × Nat) :
    Nat × Nat × Nat × Nat × Nat :=
  let (a, b, c, d, e) := st
  let (i, w) := iw
  let f :=
    if i < 20 then (b &&& c) ||| ((4294967295 - b) &&& d)
    else if i < 40 then b ^^^ c ^^^ d
    else if i < 60 then (b &&& c) ||| (b &&& d) ||| (c &&& d)
    else b ^^^ c ^^^ d
  let k :=
    if i < 20 then 1518500249
    else if i < 40 then 1859775393
    else if i < 60 then 2400959708
    else 3395469782
  let temp := (rotl 5 a + f + e + k + w) % U32
  (temp, a, rotl 30 b, c, d)

/-- Process one 64-byte block, updating the five-word chaining state. -/
def sha1Block (h : Nat × Nat × Nat × Nat × Nat) (block : List Nat) :
    Nat × Nat × Nat × Nat × Nat :=
  let ws := sha1Schedule block
  let (h0, h1, h2, h3, h4) := h
  let (a, b, c, d, e) :=
    ((List.range 80).zip ws).foldl sha1Round (h0, h1, h2, h3, h4)
  ((h0 + a) % U32, (h1 + b) % U32, (h2 + c) % U32, (h3 + d) % U32, (h4 + e) % U32)

def sha1Init : Nat × Nat × Nat × Nat × Nat :=
  (1732584193, 4023233417, 2562383102, 271733878, 3285377520)

/-- SHA-1 digest of a byte sequence, as 20 bytes. -/
def sha1 (msg : List Nat) : List Nat :=
  let (h0, h1, h2, h3, h4) :=
    (toBlocks (bytesToWords (sha1Pad msg))).foldl sha1Block sha1Init
  be32 h0 ++ be32 h1 ++ be32 h2 ++ be32 h3 ++ be32 h4

/-- Lowercase hex digit for a value below 16, as an ASCII byte. -/
def hexDigitByte (n : Nat) : Nat := if n < 10 then 48 + n else 87 + n

/-- Lowercase hexadecimal rendering of a byte sequence (two hex digits
per byte). -/
def toHexBytes (bytes : List Nat) : List Nat :=
  (bytes.map (fun b => [hexDigitByte (b / 16), hexDigitByte (b % 16)])).flatten

/-- Value of an ASCII hex digit; yields 0 on non-hex input (the source
panics there, and every use in this development is on valid hex). -/
def hexDigitVal (c : Nat) : Nat :=
  if 48 ≤ c ∧ c ≤ 57 then c - 48
  else if 97 ≤ c ∧ c ≤ 102 then c - 87
  else if 65 ≤ c ∧ c ≤ 70 then c - 55
  else 0

/-- Decode a hexadecimal string (as bytes) into raw bytes, two digits at
a time, mirroring from_hex on well-formed input. -/
def fromHex : List Nat → List Nat
  | hi :: lo :: rest => (hexDigitVal hi * 16 + hexDigitVal lo) :: fromHex rest
  | _ => []

/-!
Object model (src/database/objects.rs).  An object is serialized as
its type tag, a space, the decimal content length, a NUL, and the
content; its OID is the lowercase-hex SHA-1 of that serialization.
-/

/-- Object.to_bytes from the source: type tag, space, decimal length,
NUL, content. -/
def Object.to_bytes (object_type : List Nat) (content : List Nat) : List Nat :=
  object_type ++ [32] ++ decimalBytes content.length ++ [0] ++ content

/-- Object.oid from the source: hex rendering of the SHA-1 of
to_bytes. -/
def Object.oid (object_type : List Nat) (content : List Nat) : List Nat :=
  toHexBytes (sha1 (Object.to_bytes object_type content))

/-- Blob objects have type tag "blob" and their raw data as content. -/
def Blob.oid (data : List Nat) : List Nat := Object.oid (ascii "blob") data

/-- Modelled from the spec: the canonical serialization of a blob,
written exactly as the spec sentence states it: the bytes of
"blob " followed by the decimal length, a NUL byte, and the content. -/
def specBlobSerialization (content : List Nat) : List Nat :=
  ascii "blob " ++ decimalBytes content.length ++ [0] ++ content

/-- A byte is a lowercase hexadecimal digit character. -/
def isLowerHexDigit (c : Nat) : Prop := (48 ≤ c ∧ c ≤ 57) ∨ (97 ≤ c ∧ c ≤ 102)

/-!
Checksummed stream (src/index/checksum.rs).  A reader is a pair of the
bytes still unread in the inner source and the bytes fed to the digest
so far; a writer is a pair of the bytes in the inner sink and the bytes
fed to the digest so far.
-/

structure CFile where
  remaining : List Nat
  hashed : List Nat
deriving DecidableEq

structure WFile where
  written : List Nat
  hashed : List Nat
deriving DecidableEq

/-- Read through the wrapper: takes at most n bytes from the inner source
and feeds the full n-byte buffer to the digest (the Read impl hashes the
whole buffer, which keeps its prior contents — zeros at every call
site — beyond the bytes actually read). -/
def CFile.read (cf : CFile) (n : Nat) : List Nat × CFile :=
  let taken := cf.remaining.take n
  let buf := taken ++ List.replicate (n - taken.length) 0
  (buf, { remaining := cf.remaining.drop n, hashed := cf.hashed ++ buf })

/-- read_exact through the wrapper: fails unless n bytes are available;
on success the n bytes read are fed to the digest. -/
def CFile.read_exact (cf : CFile) (n : Nat) : Option (List Nat × CFile) :=
  if n ≤ cf.remaining.length then
    some (cf.remaining.take n,
      { remaining := cf.remaining.drop n,
        hashed := cf.hashed ++ cf.remaining.take n })
  else none

/-- hash(): the digest of everything fed so far. -/
def CFile.hash (cf : CFile) : List Nat := sha1 cf.hashed

/-- verify_checksum(): computes the current digest, reads exactly that
many trailing bytes directly from the inner source — bypassing the
digest update — and returns whether the two match. -/
def CFile.verify_checksum (cf : CFile) : Option (Bool × CFile) :=
  let computed := cf.hash
  if computed.length ≤ cf.remaining.length then
    some (computed == cf.remaining.take computed.length,
      { remaining := cf.remaining.drop computed.length, hashed := cf.hashed })
  else none

/-- write through the wrapper: feeds the bytes to both the digest and
the inner sink. -/
def WFile.write (f : WFile) (buf : List Nat) : WFile :=
  { written := f.written ++ buf, hashed := f.hashed ++ buf }

/-- write_hash(): appends the digest-so-far to the inner sink, without
feeding it to the digest. -/
def WFile.write_hash (f : WFile) : WFile :=
  { written := f.written ++ sha1 f.hashed, hashed := f.hashed }

/-!
Index (src/index.rs).  An index entry is ten 32-bit stat fields, a raw
20-byte OID, a 16-bit flags word and a path.  The in-memory index is a
BTreeMap keyed by path; it is modelled as a list kept sorted by the
PathBuf ordering (component-wise lexicographic comparison).
-/

structure Entry where
  ctime : Nat
  ctime_nsec : Nat
  mtime : Nat
  mtime_nsec : Nat
  dev : Nat
  ino : Nat
  mode : Nat
  uid : Nat
  gid : Nat
  size : Nat
  oid : List Nat
  flags : Nat
  path : List Nat
deriving DecidableEq

/-- Lexicographic comparison of byte strings (the Ord instance of OsStr
on a single path component). -/
def bytesCmp : List Nat → List Nat → Ordering
  | [], [] => .eq
  | [], _ :: _ => .lt
  | _ :: _, [] => .gt
  | a :: as, b :: bs =>
    match compare a b with
    | .eq => bytesCmp as bs
    | o => o

/-- Split a path into its components at slash bytes. -/
def splitSlash : List Nat → List (List Nat)
  | [] => [[]]
  | b :: rest =>
    if b = 47 then [] :: splitSlash rest
    else
      match splitSlash rest with
      | g :: gs => (b :: g) :: gs
      | [] => [[b]]

/-- Lexicographic comparison of component lists (the Ord instance of
PathBuf compares the component sequences). -/
def compsCmp : List (List Nat) → List (List Nat) → Ordering
  | [], [] => .eq
  | [], _ :: _ => .lt
  | _ :: _, [] => .gt
  | a :: as, b :: bs =>
    match bytesCmp a b with
    | .eq => compsCmp as bs
    | o => o

/-- The PathBuf ordering used by the BTreeMap keys. -/
def pathCmp (p q : List Nat) : Ordering := compsCmp (splitSlash p) (splitSlash q)

/-- BTreeMap insert, on the sorted-list model: replaces an entry with an
equal key, otherwise inserts at the ordered position. -/
def insertSorted : List Entry → Entry → List Entry
  | [], e => [e]
  | x :: xs, e =>
    match pathCmp e.path x.path with
    | .lt => e :: x :: xs
    | .eq => e :: xs
    | .gt => x :: insertSorted xs e

/-- The fixed-size 63-byte prelude of a serialized entry plus its path:
ten big-endian u32 stat fields, the raw OID, big-endian u16 flags, the
path bytes and the terminating NUL. -/
def entryBody (e : Entry) : List Nat :=
  be32 e.ctime ++ be32 e.ctime_nsec ++ be32 e.mtime ++ be32 e.mtime_nsec ++
  be32 e.dev ++ be32 e.ino ++ be32 e.mode ++ be32 e.uid ++ be32 e.gid ++
  be32 e.size ++ e.oid ++ be16 e.flags ++ e.path ++ [0]

/-- NUL count the align combinator appends to reach a multiple of 8. -/
def padTo8 (len : Nat) : Nat := (8 - len % 8) % 8

/-- Entry::serialize: the body, NUL-padded to a multiple of 8 bytes. -/
def Entry.serialize (e : Entry) : List Nat :=
  entryBody e ++ List.replicate (padTo8 (entryBody e).length) 0

def INDEX_SIGNATURE : List Nat := ascii "DIRC"

def INDEX_VERSION : Nat := 2

/-- Index::serialize_entries: signature, version, entry count, then each
entry in ascending path order (the BTreeMap iteration order). -/
def serialize_entries (entries : List Entry) : List Nat :=
  INDEX_SIGNATURE ++ be32 INDEX_VERSION ++ be32 entries.length ++
    (entries.map Entry.serialize).flatten

/-- Index::write_updates emits the serialized entries through the
checksummed writer and then appends the 20-byte digest. -/
def write_updates_bytes (entries : List Entry) : List Nat :=
  serialize_entries entries ++ sha1 (serialize_entries entries)

/-- Result of a streaming nom parser: value plus unconsumed input,
Incomplete (more input needed), or a parse error. -/
inductive PR (α : Type) where
  | ok (val : α) (rest : List Nat)
  | incomplete
  | error
deriving DecidableEq

def PR.bind {α β : Type} : PR α → (α → List Nat → PR β) → PR β
  | .ok a rest, f => f a rest
  | .incomplete, _ => .incomplete
  | .error, _ => .error

/-- Streaming be_u32. -/
def pBe32 : List Nat → PR Nat
  | a :: b :: c :: d :: rest => .ok (((a * 256 + b) * 256 + c) * 256 + d) rest
  | _ => .incomplete

/-- Streaming be_u16. -/
def pBe16 : List Nat → PR Nat
  | a :: b :: rest => .ok (a * 256 + b) rest
  | _ => .incomplete

/-- Streaming take(n). -/
def pTake (n : Nat) (buf : List Nat) : PR (List Nat) :=
  if n ≤ buf.length then .ok (buf.take n) (buf.drop n) else .incomplete

/-- Streaming take_until NUL: everything strictly before the first NUL,
which stays in the input; Incomplete when no NUL is in sight. -/
def pTakeUntilNul (buf : List Nat) : PR (List Nat) :=
  match buf.findIdx? (· == 0) with
  | some i => .ok (buf.take i) (buf.drop i)
  | none => .incomplete

/-- many_m_n(1, 8, tag NUL) over complete input: greedily consumes up to
eight NUL bytes and fails when there is none. -/
def pNulRun (buf : List Nat) : PR Unit :=
  let j := min (buf.takeWhile (· == 0)).length 8
  if j = 0 then .error else .ok () (buf.drop j)

/-- The nom entry parser: ten be_u32, take(20), be_u16, take_until NUL,
terminated by one-to-eight NUL tags.  Entry::load turns the raw fields
into an Entry (from_utf8_lossy on the path is the identity here, since
entry paths come from Rust strings and are valid UTF-8). -/
def parse_entry (buf : List Nat) : PR Entry :=
  (pBe32 buf).bind fun ctime r1 =>
  (pBe32 r1).bind fun ctime_nsec r2 =>
  (pBe32 r2).bind fun mtime r3 =>
  (pBe32 r3).bind fun mtime_nsec r4 =>
  (pBe32 r4).bind fun dev r5 =>
  (pBe32 r5).bind fun ino r6 =>
  (pBe32 r6).bind fun mode r7 =>
  (pBe32 r7).bind fun uid r8 =>
  (pBe32 r8).bind fun gid r9 =>
  (pBe32 r9).bind fun size r10 =>
  (pTake 20 r10).bind fun oid r11 =>
  (pBe16 r11).bind fun flags r12 =>
  (pTakeUntilNul r12).bind fun path r13 =>
  (pNulRun r13).bind fun _ r14 =>
  .ok { ctime := ctime, ctime_nsec := ctime_nsec, mtime := mtime,
        mtime_nsec := mtime_nsec, dev := dev, ino := ino, mode := mode,
        uid := uid, gid := gid, size := size, oid := oid, flags := flags,
        path := path } r14

/-- The read_entries inner loop: try to parse the buffered bytes; while
the parser reports Incomplete, read eight more bytes and retry.  The
fuel argument is a modelling artifact: callers pass one more than the
number of unread bytes, which the loop can never exhaust because every
iteration consumes eight of them. -/
def entry_loop : Nat → List Nat → CFile → Except (List Nat) (Entry × CFile)
  | 0, _, _ => .error (ascii "fuel exhausted")
  | fuel + 1, buffer, cf =>
    match parse_entry buffer with
    | .ok e extra =>
      if extra = [] then .ok (e, cf)
      else .error (ascii "Programmer error: Unexpected extra data")
    | .error => .error (ascii "Index parse error")
    | .incomplete =>
      match cf.read_exact 8 with
      | none => .error (ascii "read_exact failed")
      | some (more, cf1) => entry_loop fuel (buffer ++ more) cf1

/-- The read_entries outer loop: while fewer than count entries are in
the map, read a 64-byte minimum entry, complete it via the inner loop
and insert it.  Fuel as in entry_loop. -/
def read_entries : Nat → Nat → List Entry → CFile →
    Except (List Nat) (List Entry × CFile)
  | 0, _, _, _ => .error (ascii "fuel exhausted")
  | fuel + 1, count, acc, cf =>
    if acc.length < count then
      match cf.read_exact 64 with
      | none => .error (ascii "read_exact failed")
      | some (data, cf1) =>
        match entry_loop (cf1.remaining.length + 1) data cf1 with
        | .error e => .error e
        | .ok (e, cf2) => read_entries fuel count (insertSorted acc e) cf2
    else .ok (acc, cf)

/-- Index::read_header: reads 12 bytes (a plain read, which zero-fills on
a short source), parses signature, version and count, and validates
them.  Error payloads abbreviate the formatted source messages. -/
def read_header (cf : CFile) : Except (List Nat) (Nat × CFile) :=
  let rd := cf.read 12
  match (pTake 4 rd.1).bind fun sig r1 =>
        (pBe32 r1).bind fun version r2 =>
        (pBe32 r2).bind fun count r3 =>
        (PR.ok (sig, version, count) r3) with
  | .ok (sig, version, count) extra =>
    if sig ≠ INDEX_SIGNATURE then .error (ascii "Signature mismatch")
    else if version ≠ INDEX_VERSION then .error (ascii "Version mismatch")
    else if extra ≠ [] then
      .error (ascii "Programmer error: Unexpected extra data")
    else .ok (count, rd.2)
  | _ => .error (ascii "Header parse error")

/-- Index::load_entries: header, count entries, then checksum
verification over everything read so far. -/
def load_entries (bytes : List Nat) : Except (List Nat) (List Entry) :=
  match read_header ⟨bytes, []⟩ with
  | .error e => .error e
  | .ok (count, cf1) =>
    match read_entries (cf1.remaining.length + 1) count [] cf1 with
    | .error e => .error e
    | .ok (entries, cf2) =>
      match cf2.verify_checksum with
      | none => .error (ascii "Reading checksum failed")
      | some (ok, _) =>
        if ok then .ok entries else .error (ascii "Checksum validation failed!")

/-- Outcome of File::open, as Index::load consumes it: either the file
bytes or an unspecified I/O error code (missing file, permission denied,
anything else). -/
inductive OpenResult where
  | ok (bytes : List Nat)
  | err (code : Nat)

/-- Index::load: any open error yields an empty index; an opened file is
parsed by load_entries, whose errors propagate. -/
def Index.load (r : OpenResult) : Except (List Nat) (List Entry) :=
  match r with
  | .ok bytes => load_entries bytes
  | .err _ => .ok []

/-- Join path components with slash bytes (the rendering of a PathBuf
built from the given components). -/
def joinSlash : List (List Nat) → List Nat
  | [] => []
  | [c] => c
  | c :: rest => c ++ 47 :: joinSlash rest

/-- PathBuf::ancestors of a relative path: the path itself, each parent
in turn, and finally the empty path. -/
def pathAncestors (p : List Nat) : List (List Nat) :=
  ((List.range ((splitSlash p).length + 1)).reverse).map
    (fun k => joinSlash ((splitSlash p).take k))

/-- BTreeMap::remove by key, on the sorted-list model. -/
def removeKey (entries : List Entry) (key : List Nat) : List Entry :=
  entries.filter (fun e => !(pathCmp e.path key == .eq))

/-- Index::discard_conflicts: remove every ancestor of the new path from
the map. -/
def discard_conflicts (entries : List Entry) (p : List Nat) : List Entry :=
  (pathAncestors p).foldl removeKey entries

/-- Index::add: discard conflicting ancestors, then insert the entry at
its path (the entry itself carries the stat data and OID the source
builds from the workspace file). -/
def Index.add (entries : List Entry) (e : Entry) : List Entry :=
  insertSorted (discard_conflicts entries e.path) e

/-- A proper ancestor of a path: the join of a strict leading slice of
its slash-separated components. -/
def properAncestorOf (q p : List Nat) : Prop :=
  ∃ k, k < (splitSlash p).length ∧
    q = joinSlash ((splitSlash p).take k)

/-- A strict descendant of a path: its components extend the other
path's components by at least one. -/
def strictDescendantOf (q p : List Nat) : Prop :=
  (splitSlash p).length < (splitSlash q).length ∧
    (splitSlash q).take (splitSlash p).length = splitSlash p

/-- Well-formed entry: field ranges of the Rust types, a 20-byte OID and
a NUL-free path of bytes. -/
def wfEntry (e : Entry) : Prop :=
  e.ctime < U32 ∧ e.ctime_nsec < U32 ∧ e.mtime < U32 ∧ e.mtime_nsec < U32 ∧
  e.dev < U32 ∧ e.ino < U32 ∧ e.mode < U32 ∧ e.uid < U32 ∧ e.gid < U32 ∧
  e.size < U32 ∧ e.flags < 65536 ∧ e.oid.length = 20 ∧
  (∀ b ∈ e.path, 0 < b ∧ b < 256)

/-- An index entry with all stat data zeroed, at a given path (enough
for statements that only concern the staging map keys). -/
def entryAt (p : List Nat) : Entry :=
  { ctime := 0, ctime_nsec := 0, mtime := 0, mtime_nsec := 0, dev := 0,
    ino := 0, mode := 0, uid := 0, gid := 0, size := 0,
    oid := List.replicate 20 0, flags := 0, path := p }

/-!
Lockfile (src/lockfile.rs) and reference store (src/refs.rs).  The
filesystem is an association list from paths (byte strings) to file
contents.
-/

abbrev FS : Type := List (List Nat × List Nat)

def fsLookup : FS → List Nat → Option (List Nat)
  | [], _ => none
  | (k, v) :: rest, p => if k = p then some v else fsLookup rest p

def fsRemove : FS → List Nat → FS
  | [], _ => []
  | (k, v) :: rest, p =>
    if k = p then fsRemove rest p else (k, v) :: fsRemove rest p

def fsInsert (fs : FS) (p : List Nat) (data : List Nat) : FS :=
  (p, data) :: fsRemove fs p

/-- Path of the .lock sidecar (with_extension "lock"; the paths locked
by the source — HEAD and index — have no extension to replace). -/
def lockPathOf (p : List Nat) : List Nat := p ++ ascii ".lock"

/-- Lockfile::hold_for_update: exclusive creation of the sidecar; none
models the Busy outcome (the AlreadyExists error kind maps to Ok(None)
in the source). -/
def hold_for_update (fs : FS) (p : List Nat) : Option FS :=
  if (fsLookup fs (lockPathOf p)).isSome then none
  else some (fsInsert fs (lockPathOf p) [])

/-- LockfileGuard::write: append bytes to the open lock file. -/
def guard_write (fs : FS) (p : List Nat) (data : List Nat) : FS :=
  fsInsert fs (lockPathOf p) ((fsLookup fs (lockPathOf p)).getD [] ++ data)

/-- LockfileGuard::commit: rename the sidecar over the target path. -/
def guard_commit (fs : FS) (p : List Nat) : FS :=
  match fsLookup fs (lockPathOf p) with
  | some data => fsInsert (fsRemove fs (lockPathOf p)) p data
  | none => fs

/-- Dropping a LockfileGuard: the source defines no Drop impl for
Lockfile or LockfileGuard, so a drop only closes the file descriptor;
the filesystem is untouched and the sidecar file stays. -/
def guard_drop (fs : FS) : FS := fs

/-- The HEAD file path, relative to the refs root. -/
def headPath : List Nat := ascii "HEAD"

/-- Refs::update_head: take the lock on HEAD, write the oid and a
newline, commit; Busy is an error. -/
def update_head (fs : FS) (oid : List Nat) : Except (List Nat) FS :=
  match hold_for_update fs headPath with
  | some fs1 =>
    .ok (guard_commit (guard_write (guard_write fs1 headPath oid) headPath [10])
      headPath)
  | none => .error (ascii "Could not acquire lock on file: HEAD")

/-- Rust char::is_whitespace restricted to ASCII, which is all trim
meets on an OID file. -/
def isAsciiWhitespace (b : Nat) : Bool :=
  b == 9 || b == 10 || b == 11 || b == 12 || b == 13 || b == 32

/-- str::trim: strip leading and trailing whitespace. -/
def trimBytes (bs : List Nat) : List Nat :=
  ((bs.dropWhile isAsciiWhitespace).reverse.dropWhile isAsciiWhitespace).reverse

/-- Refs::read_head: none when the HEAD file does not exist (the
NotFound error kind), otherwise the trimmed contents. -/
def read_head (fs : FS) : Option (List Nat) :=
  match fsLookup fs headPath with
  | some data => some (trimBytes data)
  | none => none

/-!
Tree builder (src/database/objects.rs, the module the crate compiles
via database.rs; src/database/tree.rs holds an identical copy of this
code).  A relative path is modelled by its list of canonical
components.
-/

structure TreeFileRec where
  rel_path : List (List Nat)
  oid : List Nat
  mode : Nat
deriving DecidableEq

/-- TreeFile::mode: executable when any of the 0o100 bits of the stat
mode is set. -/
def TreeFileRec.mode_str (f : TreeFileRec) : List Nat :=
  if f.mode &&& 64 ≠ 0 then ascii "100755" else ascii "100644"

/-- A tree node: a file leaf (TreeEntry::File) or a subtree with its
insertion-ordered key list and its name-to-child map
(TreeEntry::Tree). -/
inductive TNode where
  | file (f : TreeFileRec)
  | tree (key_order : List (List Nat)) (entries : List (List Nat × TNode))

/-- HashMap lookup on the association-list model of a node's entries. -/
def lookupChild : List (List Nat × TNode) → List Nat → Option TNode
  | [], _ => none
  | (k, c) :: rest, key => if k = key then some c else lookupChild rest key

/-- HashMap insert on the association-list model (replaces an existing
binding, appends a new one). -/
def updateChild : List (List Nat × TNode) → List Nat → TNode → List (List Nat × TNode)
  | [], key, c => [(key, c)]
  | (k, c0) :: rest, key, c =>
    if k = key then (k, c) :: rest else (k, c0) :: updateChild rest key c

/-- Tree::add_entry on a node given as its key_order and entries: walk
the parent components, creating empty subtrees as needed; insert the
file leaf at its final name; fail when a walked name holds a file. -/
def add_entry : List (List Nat) → List (List Nat) → List (List Nat × TNode) →
    TreeFileRec → Except (List Nat) (List (List Nat) × List (List Nat × TNode))
  | [], key_order, entries, entry =>
    match entry.rel_path.getLast? with
    | none => .error (ascii "Missing filename")
    | some name => .ok (key_order ++ [name], updateChild entries name (.file entry))
  | par :: rest, key_order, entries, entry =>
    if par = [] then .error (ascii "Missing filename")
    else
      let entries1 := if (lookupChild entries par).isSome then entries
                      else updateChild entries par (.tree [] [])
      let key_order1 := if (lookupChild entries par).isSome then key_order
                        else key_order ++ [par]
      match lookupChild entries1 par with
      | some (.tree ko2 en2) =>
        match add_entry rest ko2 en2 entry with
        | .ok (ko3, en3) => .ok (key_order1, updateChild entries1 par (.tree ko3 en3))
        | .error e => .error e
      | some (.file _) =>
        .error (ascii "A parent of " ++ joinSlash entry.rel_path ++
          ascii " is not a directory")
      | none => .error (ascii "unreachable: entry was just inserted")

/-- Comparison of the rendered path strings, as sort_unstable_by
compares them. -/
def pathStringLe (a b : TreeFileRec) : Bool :=
  !(bytesCmp (joinSlash a.rel_path) (joinSlash b.rel_path) == .gt)

/-- Insertion into a list sorted by the path string. -/
def insertByPathString (x : TreeFileRec) : List TreeFileRec → List TreeFileRec
  | [] => [x]
  | y :: ys => if pathStringLe x y then x :: y :: ys else y :: insertByPathString x ys

/-- Vec::sort_unstable_by on the path strings (a sorted permutation;
which one is unspecified for equal keys, and insertion sort is one). -/
def sortByPathString : List TreeFileRec → List TreeFileRec
  | [] => []
  | x :: xs => insertByPathString x (sortByPathString xs)

/-- Tree::build: sort the records by path string, then insert each into
an initially empty root. -/
def build_loop : List TreeFileRec → List (List Nat) × List (List Nat × TNode) →
    Except (List Nat) (List (List Nat) × List (List Nat × TNode))
  | [], t => .ok t
  | f :: fs, (ko, en) =>
    match add_entry f.rel_path.dropLast ko en f with
    | .ok t2 => build_loop fs t2
    | .error e => .error e

def Tree.build (files : List TreeFileRec) :
    Except (List Nat) (List (List Nat) × List (List Nat × TNode)) :=
  build_loop (sortByPathString files) ([], [])

/-- Association lookup keyed by a byte string. -/
def lookupAssoc {α : Type} : List (List Nat × α) → List Nat → Option α
  | [], _ => none
  | (k, v) :: rest, key => if k = key then some v else lookupAssoc rest key

/-- Tree::content, given the per-child (mode string, hex OID) pairs:
iterate the recorded key order and emit "mode name NUL raw-oid" records
(entries[key] panics on a missing key in the source; a missing key
contributes nothing here and never occurs in a built tree). -/
def renderContent (ko : List (List Nat))
    (infos : List (List Nat × (List Nat × List Nat))) : List Nat :=
  (ko.map (fun k =>
    match lookupAssoc infos k with
    | some (mode, oidHex) => mode ++ [32] ++ k ++ [0] ++ fromHex oidHex
    | none => [])).flatten

mutual
/-- TreeEntry::mode and TreeEntry::oid of a child: a file leaf reports
its stat-derived mode string and its given OID; a subtree reports the
fixed directory mode 40000 and its recursively computed tree OID. -/
def childInfo : TNode → List Nat × List Nat
  | .file f => (f.mode_str, f.oid)
  | .tree ko entries =>
    (ascii "40000", Object.oid (ascii "tree") (renderContent ko (childInfos entries)))

def childInfos : List (List Nat × TNode) → List (List Nat × (List Nat × List Nat))
  | [] => []
  | (k, c) :: rest => (k, childInfo c) :: childInfos rest
end

/-- Tree::content of a tree node. -/
def Tree.content (ko : List (List Nat)) (entries : List (List Nat × TNode)) : List Nat :=
  renderContent ko (childInfos entries)

/-- Tree::oid (Object::oid with the tree type tag). -/
def Tree.oid (ko : List (List Nat)) (entries : List (List Nat × TNode)) : List Nat :=
  Object.oid (ascii "tree") (Tree.content ko entries)

mutual
/-- Tree::traverse: recurse into each subtree in recorded key order,
then visit the node itself; the returned list is the callback order. -/
def traverseNode : TNode → List TNode
  | .file _ => []
  | .tree ko entries =>
    (ko.map (fun k =>
      match lookupAssoc (childTravs entries) k with
      | some tl => tl
      | none => [])).flatten ++ [.tree ko entries]

def childTravs : List (List Nat × TNode) → List (List Nat × List TNode)
  | [] => []
  | (k, c) :: rest => (k, traverseNode c) :: childTravs rest
end

/-- The OID under which Database::store persists a visited node. -/
def TNode.oidOf : TNode → List Nat
  | .file f => f.oid
  | .tree ko entries => Tree.oid ko entries

/-!
Commit command (src/cmd/commit.rs, with the commit object of
src/database/commit.rs it constructs).  The object database is the list
of stored OIDs in store order; HEAD lives in the refs filesystem.
-/

structure AuthorRec where
  name : List Nat
  email : List Nat
  unix_timestamp : Int
  tz : List Nat
deriving DecidableEq

/-- Decimal rendering of a signed timestamp. -/
def intDecimalBytes (i : Int) : List Nat :=
  if i < 0 then 45 :: decimalBytes i.natAbs else decimalBytes i.natAbs

/-- Display for Author: "name <email> seconds offset". -/
def AuthorRec.display (a : AuthorRec) : List Nat :=
  a.name ++ [32, 60] ++ a.email ++ [62, 32] ++
    intDecimalBytes a.unix_timestamp ++ [32] ++ a.tz

/-- Join text lines with newline separators (Vec::join("\n")). -/
def joinNewline : List (List Nat) → List Nat
  | [] => []
  | [l] => l
  | l :: rest => l ++ 10 :: joinNewline rest

/-- Commit::content: tree line, optional parent line, author, committer,
a blank line, then the message. -/
def Commit.content (parent : Option (List Nat)) (tree : List Nat)
    (author : AuthorRec) (message : List Nat) : List Nat :=
  joinNewline ([ascii "tree " ++ tree] ++
    (match parent with
     | some p => [ascii "parent " ++ p]
     | none => []) ++
    [ascii "author " ++ author.display,
     ascii "committer " ++ author.display,
     [],
     message])

/-- Commit::oid. -/
def Commit.oid (parent : Option (List Nat)) (tree : List Nat)
    (author : AuthorRec) (message : List Nat) : List Nat :=
  Object.oid (ascii "commit") (Commit.content parent tree author message)

/-- str::lines().next(): nothing for an empty message, otherwise the
bytes before the first newline, a trailing carriage return stripped. -/
def firstLine (msg : List Nat) : Option (List Nat) :=
  match msg with
  | [] => none
  | _ =>
    let l := msg.takeWhile (fun b => !(b == 10))
    some (if l.getLast? = some 13 then l.dropLast else l)

/-- cmd::commit::execute, from reading the index (already turned into
tree-file records) to updating HEAD: build the tree, store every tree
object, read the parent, store the commit object, then validate the
message and finally move HEAD. -/
def commit_execute (db : List (List Nat)) (fs : FS) (entries : List TreeFileRec)
    (author : AuthorRec) (message : List Nat) :
    List (List Nat) × FS × Except (List Nat) (List Nat) :=
  match Tree.build entries with
  | .error e => (db, fs, .error e)
  | .ok (ko, en) =>
    let db1 := db ++ (traverseNode (.tree ko en)).map TNode.oidOf
    let parent := read_head fs
    let commitOid := Commit.oid parent (Tree.oid ko en) author message
    let db2 := db1 ++ [commitOid]
    match firstLine message with
    | none => (db2, fs, .error (ascii "Empty message"))
    | some _ =>
      match update_head fs commitOid with
      | .error e => (db2, fs, .error e)
      | .ok fs2 => (db2, fs2, .ok commitOid)

mutual
/-- Number of nodes in a tree (a measure for induction). -/
def nodeSize : TNode → Nat
  | .file _ => 1
  | .tree _ entries => 1 + childSizes entries

def childSizes : List (List Nat × TNode) → Nat
  | [] => 0
  | (_, c) :: rest => nodeSize c + childSizes rest
end

/-- A well-formed tree node, as the builder produces them: the recorded
key order consists exactly of the map keys, in order, without
duplicates, and every child is well formed. -/
inductive WfNode : TNode → Prop where
  | file (f : TreeFileRec) : WfNode (.file f)
  | tree (ko : List (List Nat)) (entries : List (List Nat × TNode)) :
      ko = entries.map Prod.fst →
      (entries.map Prod.fst).Nodup →
      (∀ kc ∈ entries, WfNode kc.2) →
      WfNode (.tree ko entries)

/-- Modelled from the spec: a node's payload is the concatenation, in
recorded first-seen name order, of records "mode SP name NUL raw-oid",
where a file child contributes its own mode and OID and a subtree child
contributes the fixed mode 40000 and its computed tree OID. -/
def specPayload (ko : List (List Nat)) (en : List (List Nat × TNode)) : List Nat :=
  (ko.map (fun k =>
    match lookupAssoc en k with
    | some (.file f) => f.mode_str ++ [32] ++ k ++ [0] ++ fromHex f.oid
    | some (.tree ko2 en2) =>
      ascii "40000" ++ [32] ++ k ++ [0] ++ fromHex (Tree.oid ko2 en2)
    | none => [])).flatten

/-- One element occurs strictly before another in a list: the list
splits into a part holding the first and a later part holding the
second. -/
def visitedBefore (l : List TNode) (a b : TNode) : Prop :=
  ∃ l1 l2, l = l1 ++ l2 ∧ a ∈ l1 ∧ b ∈ l2

/-- The fixed-width prelude of a serialized entry: the ten stat fields,
the raw OID and the flags word — 62 bytes for a well-formed entry. -/
def entryFixed (e : Entry) : List Nat :=
  be32 e.ctime ++ be32 e.ctime_nsec ++ be32 e.mtime ++ be32 e.mtime_nsec ++
  be32 e.dev ++ be32 e.ino ++ be32 e.mode ++ be32 e.uid ++ be32 e.gid ++
  be32 e.size ++ e.oid ++ be16 e.flags

/-- The nested single-branch tree produced by inserting one file at
dirs ++ [name] into an empty root. -/
def chainOf : List (List Nat) → List Nat → TreeFileRec →
    List (List Nat) × List (List Nat × TNode)
  | [], name, f => ([name], [(name, .file f)])
  | d :: rest, name, f =>
    ([d], [(d, .tree (chainOf rest name f).1 (chainOf rest name f).2)])

/-! ## Theorems -/

theorem sha1_length (msg : List Nat) : (sha1 msg).length = 20 := by
  rcases hf : (toBlocks (bytesToWords (sha1Pad msg))).foldl sha1Block sha1Init with
    ⟨a, b, c, d, e⟩
  simp [sha1, hf, be32]

theorem sha1_bytes_lt (msg : List Nat) : ∀ b ∈ sha1 msg, b < 256 := by
  rcases hf : (toBlocks (bytesToWords (sha1Pad msg))).foldl sha1Block sha1Init with
    ⟨a, b, c, d, e⟩
  simp only [sha1, hf, be32]
  intro x hx
  simp only [List.mem_append, List.mem_cons, List.not_mem_nil, or_false] at hx
  omega

theorem hexDigitByte_lower {n : Nat} (h : n < 16) : isLowerHexDigit (hexDigitByte n) := by
  unfold hexDigitByte isLowerHexDigit
  split <;> omega

theorem toHexBytes_lower {bs : List Nat} (hb : ∀ b ∈ bs, b < 256) :
    ∀ c ∈ toHexBytes bs, isLowerHexDigit c := by
  intro c hc
  simp only [toHexBytes, List.mem_flatten, List.mem_map] at hc
  obtain ⟨l, ⟨b, hbmem, rfl⟩, hcl⟩ := hc
  have hblt := hb b hbmem
  simp only [List.mem_cons, List.not_mem_nil, or_false] at hcl
  rcases hcl with rfl | rfl
  · exact hexDigitByte_lower (by omega)
  · exact hexDigitByte_lower (by omega)

theorem toHexBytes_length (bs : List Nat) : (toHexBytes bs).length = 2 * bs.length := by
  induction bs with
  | nil => simp [toHexBytes]
  | cons b rest ih =>
    simp [toHexBytes] at ih ⊢
    omega

/-- C1: For every byte sequence B, the OID the database assigns to a blob
with content B equals the SHA-1 of the canonical serialization
"blob " + decimal(|B|) + NUL + B, rendered as 40 lowercase hex characters;
in particular the blob with content "hello\n" has OID
ce013625030ba8dba906f756967f9e9ca394464a. -/
theorem blob_oid_is_sha1_of_canonical_serialization :
    (∀ B : List Nat,
      Blob.oid B = toHexBytes (sha1 (specBlobSerialization B)) ∧
      (Blob.oid B).length = 40 ∧
      (∀ c ∈ Blob.oid B, isLowerHexDigit c)) ∧
    Blob.oid (ascii "hello\n") = ascii "ce013625030ba8dba906f756967f9e9ca394464a" := by
  constructor
  · intro B
    refine ⟨rfl, ?_, toHexBytes_lower (sha1_bytes_lt _)⟩
    simp [Blob.oid, Object.oid, toHexBytes_length, sha1_length]
  · decide

/-- Witness for the blob OID theorem: its hex-digit clause discharged at
content [] and the first digit of the resulting OID. -/
theorem blob_oid_is_sha1_of_canonical_serialization_witness :
    isLowerHexDigit 101 := by
  have h := (blob_oid_is_sha1_of_canonical_serialization.1 []).2.2
  exact h 101 (by decide)

/-- C4: Writing the bytes "test_contents" through the checksummed writer
and then calling write_hash leaves the inner sink holding "test_contents"
followed by exactly the 20 bytes 57 c5 84 76 41 e1 ac ef c8 f9 eb e8 1d
21 13 0b fa 0c 75 54; re-reading the 13 leading bytes through a
checksummed reader and then calling verify_checksum returns true, the 20
trailing bytes being read without being fed into the digest. -/
theorem checksummed_stream_roundtrip_test_contents :
    (((⟨[], []⟩ : WFile).write (ascii "test_contents")).write_hash.written
      = ascii "test_contents" ++
        [87, 197, 132, 118, 65, 225, 172, 239, 200, 249, 235, 232,
         29, 33, 19, 11, 250, 12, 117, 84]) ∧
    ((⟨((⟨[], []⟩ : WFile).write (ascii "test_contents")).write_hash.written,
        []⟩ : CFile).read_exact 13
      = some (ascii "test_contents",
          ⟨[87, 197, 132, 118, 65, 225, 172, 239, 200, 249, 235, 232,
            29, 33, 19, 11, 250, 12, 117, 84], ascii "test_contents"⟩)) ∧
    ((⟨[87, 197, 132, 118, 65, 225, 172, 239, 200, 249, 235, 232,
        29, 33, 19, 11, 250, 12, 117, 84], ascii "test_contents"⟩
        : CFile).verify_checksum
      = some (true, ⟨[], ascii "test_contents"⟩)) := by
  refine ⟨by decide, by decide, by decide⟩

theorem bytesCmp_eq_iff : ∀ {a b : List Nat}, bytesCmp a b = .eq ↔ a = b
  | [], [] => by simp [bytesCmp]
  | [], _ :: _ => by simp [bytesCmp]
  | _ :: _, [] => by simp [bytesCmp]
  | a :: as, b :: bs => by
    simp only [bytesCmp, List.cons.injEq]
    cases hc : compare a b with
    | lt =>
      constructor
      · intro h
        exact Ordering.noConfusion h
      · rintro ⟨rfl, -⟩
        have := Nat.compare_eq_lt.mp hc
        omega
    | eq =>
      have hab : a = b := Nat.compare_eq_eq.mp hc
      subst hab
      simp [bytesCmp_eq_iff]
    | gt =>
      constructor
      · intro h
        exact Ordering.noConfusion h
      · rintro ⟨rfl, -⟩
        have := Nat.compare_eq_gt.mp hc
        omega

theorem compsCmp_eq_iff : ∀ {a b : List (List Nat)}, compsCmp a b = .eq ↔ a = b
  | [], [] => by simp [compsCmp]
  | [], _ :: _ => by simp [compsCmp]
  | _ :: _, [] => by simp [compsCmp]
  | a :: as, b :: bs => by
    simp only [compsCmp, List.cons.injEq]
    cases hc : bytesCmp a b with
    | lt =>
      constructor
      · intro h
        exact Ordering.noConfusion h
      · rintro ⟨rfl, -⟩
        rw [bytesCmp_eq_iff.mpr rfl] at hc
        exact Ordering.noConfusion hc
    | eq =>
      have hab : a = b := bytesCmp_eq_iff.mp hc
      subst hab
      simp [compsCmp_eq_iff]
    | gt =>
      constructor
      · intro h
        exact Ordering.noConfusion h
      · rintro ⟨rfl, -⟩
        rw [bytesCmp_eq_iff.mpr rfl] at hc
        exact Ordering.noConfusion hc

theorem pathCmp_eq_iff {p q : List Nat} :
    pathCmp p q = .eq ↔ splitSlash p = splitSlash q := by
  simp [pathCmp, compsCmp_eq_iff]

theorem pathCmp_refl (p : List Nat) : pathCmp p p = .eq :=
  pathCmp_eq_iff.mpr rfl

theorem splitSlash_ne_nil (p : List Nat) : splitSlash p ≠ [] := by
  cases p with
  | nil => simp [splitSlash]
  | cons b rest =>
    simp only [splitSlash]
    split
    · simp
    · rcases h : splitSlash rest with _ | ⟨g, gs⟩ <;> simp

theorem splitSlash_no_slash : ∀ (p : List Nat), ∀ c ∈ splitSlash p, 47 ∉ c
  | [] => by simp [splitSlash]
  | b :: rest => by
    have ih := splitSlash_no_slash rest
    by_cases hb : b = 47
    · simp only [splitSlash, if_pos hb]
      intro c hc
      rcases List.mem_cons.mp hc with rfl | hmem
      · simp
      · exact ih c hmem
    · simp only [splitSlash, if_neg hb]
      cases hrest : splitSlash rest with
      | nil => exact absurd hrest (splitSlash_ne_nil rest)
      | cons g gs =>
        intro c hc
        rcases List.mem_cons.mp hc with rfl | hmem
        · have hg : 47 ∉ g := ih g (by rw [hrest]; exact List.mem_cons_self g gs)
          simp only [List.mem_cons]
          rintro (h47 | h47)
          · exact hb h47.symm
          · exact hg h47
        · exact ih c (by rw [hrest]; exact List.mem_cons_of_mem g hmem)

theorem splitSlash_slashfree : ∀ {c : List Nat}, 47 ∉ c → splitSlash c = [c]
  | [], _ => by simp [splitSlash]
  | b :: rest, h => by
    have hparts : 47 ≠ b ∧ 47 ∉ rest := by
      simp only [List.mem_cons] at h
      push_neg at h
      exact h
    have hb : b ≠ 47 := Ne.symm hparts.1
    have ih := splitSlash_slashfree hparts.2
    simp only [splitSlash, if_neg hb]
    rw [ih]

theorem splitSlash_append_slash : ∀ {c ys : List Nat}, 47 ∉ c →
    splitSlash (c ++ 47 :: ys) = c :: splitSlash ys
  | [], ys, _ => by simp [splitSlash]
  | b :: rest, ys, h => by
    have hparts : 47 ≠ b ∧ 47 ∉ rest := by
      simp only [List.mem_cons] at h
      push_neg at h
      exact h
    have hb : b ≠ 47 := Ne.symm hparts.1
    have ih := @splitSlash_append_slash rest ys hparts.2
    simp only [List.cons_append, splitSlash, if_neg hb, List.append_eq]
    rw [ih]

theorem splitSlash_joinSlash :
    ∀ {comps : List (List Nat)}, (∀ c ∈ comps, 47 ∉ c) → comps ≠ [] →
      splitSlash (joinSlash comps) = comps
  | [], _, hne => absurd rfl hne
  | [c], h, _ => by
    simp only [joinSlash]
    exact splitSlash_slashfree (h c (by simp))
  | c :: c2 :: rest, h, _ => by
    simp only [joinSlash]
    rw [splitSlash_append_slash (h c (by simp))]
    rw [splitSlash_joinSlash (fun x hx => h x (List.mem_cons_of_mem c hx)) (by simp)]

theorem mem_removeKey {m : List Entry} {key : List Nat} {x : Entry} :
    x ∈ removeKey m key ↔ x ∈ m ∧ pathCmp x.path key ≠ .eq := by
  simp only [removeKey, List.mem_filter, Bool.not_eq_true']
  cases hc : pathCmp x.path key <;> simp <;> exact fun _ => rfl

theorem mem_foldl_removeKey :
    ∀ (keys : List (List Nat)) (m : List Entry) (x : Entry),
      x ∈ keys.foldl removeKey m ↔
        x ∈ m ∧ ∀ key ∈ keys, pathCmp x.path key ≠ .eq
  | [], m, x => by simp
  | key :: keys, m, x => by
    simp only [List.foldl_cons, mem_foldl_removeKey, mem_removeKey]
    constructor
    · rintro ⟨⟨hm, hk⟩, hrest⟩
      refine ⟨hm, ?_⟩
      intro k hkmem
      rcases List.mem_cons.mp hkmem with rfl | hkmem
      · exact hk
      · exact hrest k hkmem
    · rintro ⟨hm, hall⟩
      exact ⟨⟨hm, hall key (List.mem_cons_self key keys)⟩,
        fun k hk => hall k (List.mem_cons_of_mem key hk)⟩

theorem mem_insertSorted_elim :
    ∀ {m : List Entry} {e x : Entry}, x ∈ insertSorted m e → x = e ∨ x ∈ m
  | [], e, x => by simp [insertSorted]
  | y :: ys, e, x => by
    simp only [insertSorted]
    cases hc : pathCmp e.path y.path with
    | lt =>
      intro hx
      rcases List.mem_cons.mp hx with rfl | hx
      · exact Or.inl rfl
      · exact Or.inr hx
    | eq =>
      intro hx
      rcases List.mem_cons.mp hx with rfl | hx
      · exact Or.inl rfl
      · exact Or.inr (List.mem_cons_of_mem y hx)
    | gt =>
      intro hx
      rcases List.mem_cons.mp hx with rfl | hx
      · exact Or.inr (List.mem_cons_self x ys)
      · rcases mem_insertSorted_elim hx with rfl | hx
        · exact Or.inl rfl
        · exact Or.inr (List.mem_cons_of_mem y hx)

theorem mem_insertSorted_of_ne :
    ∀ {m : List Entry} {e x : Entry}, x ∈ m → pathCmp e.path x.path ≠ .eq →
      x ∈ insertSorted m e
  | [], e, x => by simp
  | y :: ys, e, x => by
    intro hx hne
    simp only [insertSorted]
    cases hc : pathCmp e.path y.path with
    | lt => exact List.mem_cons_of_mem e hx
    | eq =>
      rcases List.mem_cons.mp hx with rfl | hx
      · exact absurd hc hne
      · exact List.mem_cons_of_mem e hx
    | gt =>
      rcases List.mem_cons.mp hx with rfl | hx
      · exact List.mem_cons_self x _
      · exact List.mem_cons_of_mem y (mem_insertSorted_of_ne hx hne)

theorem ancestor_mem_pathAncestors {p : List Nat} {k : Nat}
    (hk : k ≤ (splitSlash p).length) :
    joinSlash ((splitSlash p).take k) ∈ pathAncestors p := by
  simp only [pathAncestors, List.mem_map, List.mem_reverse, List.mem_range]
  exact ⟨k, by omega, rfl⟩

theorem splitSlash_ancestor_short {p : List Nat} {k : Nat}
    (hk : k ≤ (splitSlash p).length) :
    (splitSlash (joinSlash ((splitSlash p).take k))).length ≤ max 1 k := by
  cases k with
  | zero =>
    simp [joinSlash, splitSlash]
  | succ k0 =>
    rw [splitSlash_joinSlash
      (fun c hc => splitSlash_no_slash p c (List.mem_of_mem_take hc))
      (by
        have hlt : 0 < ((splitSlash p).take (k0 + 1)).length := by
          rw [List.length_take]
          omega
        intro htake
        rw [htake] at hlt
        simp at hlt)]
    simp only [List.length_take]
    omega

/-- C3: For every index state and every path p staged via add, every
existing entry whose path is a proper ancestor (directory prefix) of p
is removed before the entry for p is inserted, and no entry whose path
is a descendant of p is removed; in particular, staging a/b after a has
been staged leaves no entry for a, and staging alice.txt, then bob.txt,
then alice.txt/nested.txt leaves the index with exactly the paths
["alice.txt/nested.txt", "bob.txt"] in that order. -/
theorem index_add_conflict_discard :
    (∀ (entries : List Entry) (e : Entry) (q : List Nat),
      e.path ≠ [] → properAncestorOf q e.path →
      ∀ x ∈ Index.add entries e, x.path ≠ q) ∧
    (∀ (entries : List Entry) (e : Entry),
      ∀ x ∈ entries, strictDescendantOf x.path e.path → x ∈ Index.add entries e) ∧
    ((Index.add (Index.add [] (entryAt (ascii "a"))) (entryAt (ascii "a/b"))).map
        Entry.path = [ascii "a/b"]) ∧
    ((Index.add (Index.add (Index.add [] (entryAt (ascii "alice.txt")))
        (entryAt (ascii "bob.txt"))) (entryAt (ascii "alice.txt/nested.txt"))).map
        Entry.path = [ascii "alice.txt/nested.txt", ascii "bob.txt"]) := by
  refine ⟨?_, ?_, by decide, by decide⟩
  · rintro entries e q hne ⟨k, hk, rfl⟩ x hx heq
    rcases mem_insertSorted_elim hx with rfl | hx
    · rcases Nat.eq_zero_or_pos k with rfl | hkpos
      · simp only [List.take_zero, joinSlash] at heq
        exact hne heq
      · have hsplit : splitSlash (joinSlash ((splitSlash x.path).take k))
            = (splitSlash x.path).take k :=
          splitSlash_joinSlash
            (fun c hc => splitSlash_no_slash _ c (List.mem_of_mem_take hc))
            (by
              have hlt : 0 < ((splitSlash x.path).take k).length := by
                rw [List.length_take]
                omega
              intro htake
              rw [htake] at hlt
              simp at hlt)
        have : splitSlash x.path = (splitSlash x.path).take k := by
          conv_lhs => rw [heq]
          exact hsplit
        have hlen := congrArg List.length this
        simp only [List.length_take] at hlen
        omega
    · have hmem := (mem_foldl_removeKey _ _ _).mp hx
      have hforb := hmem.2 (joinSlash ((splitSlash e.path).take k))
        (ancestor_mem_pathAncestors (le_of_lt hk))
      exact hforb (by rw [heq]; exact pathCmp_refl _)
  · rintro entries e x hx ⟨hlen, htake⟩
    have hn1 : 1 ≤ (splitSlash e.path).length := by
      have := splitSlash_ne_nil e.path
      cases hsp : splitSlash e.path with
      | nil => exact absurd hsp this
      | cons a l => simp
    have hsurv : x ∈ discard_conflicts entries e.path := by
      refine (mem_foldl_removeKey _ _ _).mpr ⟨hx, ?_⟩
      intro key hkey hcmp
      simp only [pathAncestors, List.mem_map, List.mem_reverse, List.mem_range] at hkey
      obtain ⟨k, hklt, rfl⟩ := hkey
      have hkeq : splitSlash x.path = splitSlash (joinSlash ((splitSlash e.path).take k)) :=
        pathCmp_eq_iff.mp hcmp
      have hshort := @splitSlash_ancestor_short e.path k (by omega)
      rw [← hkeq] at hshort
      rcases Nat.le_total k 1 with hk1 | hk1
      · rw [Nat.max_eq_left hk1] at hshort
        omega
      · rw [Nat.max_eq_right hk1] at hshort
        omega
    refine mem_insertSorted_of_ne hsurv ?_
    intro hcmp
    have := congrArg List.length (pathCmp_eq_iff.mp hcmp)
    omega

/-- Witness for the conflict-discard theorem: staging a/b into an empty
index discharges the ancestor clause at q = "a". -/
theorem index_add_conflict_discard_witness :
    (entryAt (ascii "a/b")).path ≠ ascii "a" := by
  have h := index_add_conflict_discard.1 [] (entryAt (ascii "a/b")) (ascii "a")
    (by decide) ⟨1, by decide, by decide⟩
  exact h (entryAt (ascii "a/b")) (by decide)

theorem fsLookup_fsInsert_self (fs : FS) (p d : List Nat) :
    fsLookup (fsInsert fs p d) p = some d := by
  simp [fsInsert, fsLookup]

theorem fsLookup_fsRemove_self : ∀ (fs : FS) (p : List Nat),
    fsLookup (fsRemove fs p) p = none
  | [], _ => rfl
  | (k, v) :: rest, p => by
    by_cases h : k = p
    · simpa [fsRemove, h] using fsLookup_fsRemove_self rest p
    · simpa [fsRemove, fsLookup, h] using fsLookup_fsRemove_self rest p

theorem fsLookup_fsRemove_ne : ∀ (fs : FS) {p q : List Nat}, q ≠ p →
    fsLookup (fsRemove fs p) q = fsLookup fs q
  | [], _, _, _ => rfl
  | (k, v) :: rest, p, q, h => by
    simp only [fsRemove]
    by_cases hk : k = p
    · rw [if_pos hk, fsLookup_fsRemove_ne rest h]
      have hkq : ¬ k = q := by
        rw [hk]
        exact fun he => h he.symm
      simp [fsLookup, hkq]
    · rw [if_neg hk]
      by_cases hq : k = q
      · simp [fsLookup, hq]
      · simp only [fsLookup, if_neg hq]
        exact fsLookup_fsRemove_ne rest h

theorem fsLookup_fsInsert_ne (fs : FS) {p q : List Nat} (d : List Nat) (h : q ≠ p) :
    fsLookup (fsInsert fs p d) q = fsLookup fs q := by
  have hpq : ¬ p = q := fun he => h he.symm
  simp only [fsInsert, fsLookup, if_neg hpq]
  exact fsLookup_fsRemove_ne fs h

/-- C7 evidence: the claim predicts that dropping an uncommitted
lockfile handle unlinks the P.lock sidecar, but the source defines no
Drop impl for Lockfile or LockfileGuard, so the drop leaves the sidecar
in place; evaluated here after locking "index".  The second half of the
claim (an inert destructor after commit) does hold, vacuously. -/
theorem lockfile_drop_leaves_lock_file :
    (hold_for_update [] (ascii "index")
      = some [(lockPathOf (ascii "index"), [])]) ∧
    (fsLookup (guard_drop [(lockPathOf (ascii "index"), [])])
      (lockPathOf (ascii "index")) = some []) ∧
    (∀ (fs : FS) (p : List Nat), guard_drop (guard_commit fs p) = guard_commit fs p) :=
  ⟨by decide, by decide, fun _ _ => rfl⟩

theorem dropWhile_no_ws {bs : List Nat}
    (h : ∀ b ∈ bs, isAsciiWhitespace b = false) :
    bs.dropWhile isAsciiWhitespace = bs := by
  cases bs with
  | nil => rfl
  | cons b rest => simp [List.dropWhile_cons, h b (List.mem_cons_self b rest)]

theorem trimBytes_no_ws_newline {oid : List Nat}
    (h : ∀ b ∈ oid, isAsciiWhitespace b = false) :
    trimBytes (oid ++ [10]) = oid := by
  unfold trimBytes
  cases oid with
  | nil => rfl
  | cons b rest =>
    have hb := h b (List.mem_cons_self b rest)
    have h1 : ((b :: rest) ++ [10]).dropWhile isAsciiWhitespace
        = b :: (rest ++ [10]) := by
      rw [List.cons_append]
      simp [List.dropWhile_cons, hb]
    rw [h1]
    have h2 : (b :: (rest ++ [10])).reverse = 10 :: (rest.reverse ++ [b]) := by
      simp
    rw [h2]
    have h3 : (10 :: (rest.reverse ++ [b])).dropWhile isAsciiWhitespace
        = (rest.reverse ++ [b]).dropWhile isAsciiWhitespace := by
      simp [List.dropWhile_cons, isAsciiWhitespace]
    rw [h3]
    rw [dropWhile_no_ws (fun x hx => by
      rcases List.mem_append.mp hx with hx | hx
      · exact h x (List.mem_cons_of_mem b (List.mem_reverse.mp hx))
      · simp only [List.mem_cons, List.not_mem_nil, or_false] at hx
        subst hx
        exact hb)]
    simp

/-- C8: read_head returns None when the HEAD file does not exist; for
every whitespace-free oid string, after update_head(oid) succeeds the
HEAD file contains oid followed by a single newline and a subsequent
read_head returns Some(oid); update_head fails when the lock on HEAD is
busy. -/
theorem refs_read_update_head :
    (∀ fs : FS, fsLookup fs headPath = none → read_head fs = none) ∧
    (∀ (fs : FS) (oid : List Nat),
      (∀ b ∈ oid, isAsciiWhitespace b = false) →
      fsLookup fs (lockPathOf headPath) = none →
      ∃ fs2, update_head fs oid = .ok fs2 ∧
        fsLookup fs2 headPath = some (oid ++ [10]) ∧
        read_head fs2 = some oid) ∧
    (∀ (fs : FS) (oid : List Nat),
      (fsLookup fs (lockPathOf headPath)).isSome →
      update_head fs oid = .error (ascii "Could not acquire lock on file: HEAD")) := by
  refine ⟨?_, ?_, ?_⟩
  · intro fs h
    simp [read_head, h]
  · intro fs oid hws hlock
    have hok : update_head fs oid = .ok (fsInsert
        (fsRemove (fsInsert (fsInsert (fsInsert fs (lockPathOf headPath) [])
          (lockPathOf headPath) oid) (lockPathOf headPath) (oid ++ [10]))
          (lockPathOf headPath))
        headPath (oid ++ [10])) := by
      simp [update_head, hold_for_update, hlock, guard_write, guard_commit,
        fsLookup_fsInsert_self]
    refine ⟨_, hok, fsLookup_fsInsert_self _ _ _, ?_⟩
    simp [read_head, fsLookup_fsInsert_self, trimBytes_no_ws_newline hws]
  · intro fs oid hbusy
    rw [Option.isSome_iff_exists] at hbusy
    obtain ⟨d, hd⟩ := hbusy
    simp [update_head, hold_for_update, hd]

/-- Witness for the HEAD protocol theorem: all three clauses discharged
on an empty filesystem (and a filesystem holding a stale HEAD.lock). -/
theorem refs_read_update_head_witness :
    read_head [] = none ∧
    (∃ fs2, update_head [] (ascii "ab12") = .ok fs2 ∧
      fsLookup fs2 headPath = some (ascii "ab12" ++ [10]) ∧
      read_head fs2 = some (ascii "ab12")) ∧
    update_head [(lockPathOf headPath, [])] (ascii "ab12")
      = .error (ascii "Could not acquire lock on file: HEAD") := by
  refine ⟨refs_read_update_head.1 [] (by decide),
    refs_read_update_head.2.1 [] (ascii "ab12") (by decide) (by decide),
    refs_read_update_head.2.2 [(lockPathOf headPath, [])] (ascii "ab12") (by decide)⟩

/-- C10: In the commit command, the commit object is stored in the
database before the message is checked for emptiness and before HEAD is
updated: on an empty message the command fails with "Empty message",
yet the object database has already received the tree objects and the
new commit object, while the refs filesystem (HEAD) is unchanged. -/
theorem commit_stores_before_empty_message_check :
    ∀ (db : List (List Nat)) (fs : FS) (entries : List TreeFileRec)
      (author : AuthorRec) (ko : List (List Nat)) (en : List (List Nat × TNode)),
      Tree.build entries = .ok (ko, en) →
      commit_execute db fs entries author [] =
        (db ++ (traverseNode (.tree ko en)).map TNode.oidOf ++
          [Commit.oid (read_head fs) (Tree.oid ko en) author []],
         fs, .error (ascii "Empty message")) := by
  intro db fs entries author ko en hbuild
  simp [commit_execute, hbuild, firstLine]

/-- C9: Index::load returns Ok with an empty index whenever opening the
file fails for any reason — permission denied and other I/O errors are
treated identically to a missing file, and the open error is never
propagated — whereas a failure while parsing or checksum-verifying an
opened file is propagated as an error. -/
theorem index_load_swallows_open_errors :
    (∀ code : Nat, Index.load (.err code) = .ok []) ∧
    (∀ (bytes e : List Nat),
      load_entries bytes = .error e → Index.load (.ok bytes) = .error e) ∧
    (Index.load (.ok (List.replicate 12 0)) = .error (ascii "Signature mismatch")) := by
  refine ⟨fun _ => rfl, fun bytes e h => h, by decide⟩

theorem pBe32_be32 (n : Nat) (r : List Nat) (h : n < U32) :
    pBe32 (be32 n ++ r) = .ok n r := by
  simp only [be32, List.cons_append, List.nil_append, pBe32]
  congr 1
  unfold U32 at h
  omega

theorem pBe16_be16 (n : Nat) (r : List Nat) (h : n < 65536) :
    pBe16 (be16 n ++ r) = .ok n r := by
  simp only [be16, List.cons_append, List.nil_append, pBe16]
  congr 1
  omega

theorem pTake_exact (xs r : List Nat) (n : Nat) (h : xs.length = n) :
    pTake n (xs ++ r) = .ok xs r := by
  subst h
  simp [pTake, List.take_left, List.drop_left]

theorem findIdx_zero_after : ∀ (path zs : List Nat) (i : Nat),
    (∀ b ∈ path, b ≠ 0) →
    List.findIdx? (fun x => x == 0) (path ++ 0 :: zs) i = some (i + path.length)
  | [], zs, i, _ => by simp [List.findIdx?_cons]
  | b :: rest, zs, i, h => by
    have hb : ((b == 0) : Bool) = false := by
      simp only [beq_eq_false_iff_ne, ne_eq]
      exact h b (List.mem_cons_self b rest)
    rw [List.cons_append, List.findIdx?_cons, hb]
    simp only [Bool.false_eq_true, if_false]
    rw [findIdx_zero_after rest zs (i + 1) (fun x hx => h x (List.mem_cons_of_mem b hx))]
    simp only [List.length_cons, Option.some.injEq]
    omega

theorem pTakeUntilNul_hit (path zs : List Nat) (h : ∀ b ∈ path, b ≠ 0) :
    pTakeUntilNul (path ++ 0 :: zs) = .ok path (0 :: zs) := by
  unfold pTakeUntilNul
  rw [show List.findIdx? (fun x => x == 0) (path ++ 0 :: zs) = some path.length by
    have := findIdx_zero_after path zs 0 h
    simpa using this]
  show PR.ok (List.take path.length (path ++ 0 :: zs))
    (List.drop path.length (path ++ 0 :: zs)) = PR.ok path (0 :: zs)
  rw [List.take_left, List.drop_left]

theorem pTakeUntilNul_miss (xs : List Nat) (h : ∀ b ∈ xs, b ≠ 0) :
    pTakeUntilNul xs = .incomplete := by
  have hfind : List.findIdx? (fun x => x == 0) xs = none := by
    rw [List.findIdx?_eq_none_iff]
    intro x hx
    simp only [beq_eq_false_iff_ne, ne_eq]
    exact h x hx
  simp [pTakeUntilNul, hfind]

theorem takeWhile_zero_replicate : ∀ t : Nat,
    (List.replicate t 0).takeWhile (fun x : Nat => x == 0) = List.replicate t 0
  | 0 => rfl
  | t + 1 => by
    rw [List.replicate_succ, List.takeWhile_cons]
    simp [takeWhile_zero_replicate t]

theorem pNulRun_exact (t : Nat) (h1 : 1 ≤ t) (h8 : t ≤ 8) :
    pNulRun (List.replicate t 0) = .ok () [] := by
  simp only [pNulRun, takeWhile_zero_replicate, List.length_replicate,
    Nat.min_eq_left h8]
  rw [if_neg (by omega)]
  rw [List.drop_eq_nil_of_le (by simp)]

theorem bytesCmp_swap : ∀ (a b : List Nat), bytesCmp b a = (bytesCmp a b).swap
  | [], [] => rfl
  | [], _ :: _ => rfl
  | _ :: _, [] => rfl
  | a :: as, b :: bs => by
    simp only [bytesCmp]
    cases hc : compare a b with
    | lt =>
      have hba : compare b a = Ordering.gt :=
        Nat.compare_eq_gt.mpr (Nat.compare_eq_lt.mp hc)
      rw [hba]
      rfl
    | eq =>
      have hba : compare b a = Ordering.eq :=
        Nat.compare_eq_eq.mpr (Nat.compare_eq_eq.mp hc).symm
      rw [hba]
      exact bytesCmp_swap as bs
    | gt =>
      have hba : compare b a = Ordering.lt :=
        Nat.compare_eq_lt.mpr (Nat.compare_eq_gt.mp hc)
      rw [hba]
      rfl

theorem compsCmp_swap : ∀ (a b : List (List Nat)), compsCmp b a = (compsCmp a b).swap
  | [], [] => rfl
  | [], _ :: _ => rfl
  | _ :: _, [] => rfl
  | a :: as, b :: bs => by
    simp only [compsCmp]
    cases hc : bytesCmp a b with
    | lt =>
      have hba : bytesCmp b a = Ordering.gt := by
        rw [bytesCmp_swap, hc]
        rfl
      rw [hba]
      rfl
    | eq =>
      have hba : bytesCmp b a = Ordering.eq := by
        rw [bytesCmp_swap, hc]
        rfl
      rw [hba]
      exact compsCmp_swap as bs
    | gt =>
      have hba : bytesCmp b a = Ordering.lt := by
        rw [bytesCmp_swap, hc]
        rfl
      rw [hba]
      rfl

theorem pathCmp_gt_of_lt {p q : List Nat} (h : pathCmp p q = .lt) :
    pathCmp q p = .gt := by
  unfold pathCmp at h ⊢
  rw [compsCmp_swap, h]
  rfl

theorem insertSorted_append : ∀ (acc : List Entry) (e : Entry),
    (∀ a ∈ acc, pathCmp a.path e.path = .lt) → insertSorted acc e = acc ++ [e]
  | [], e, _ => rfl
  | x :: xs, e, h => by
    have hx := pathCmp_gt_of_lt (h x (List.mem_cons_self x xs))
    simp only [insertSorted, hx]
    rw [insertSorted_append xs e (fun a ha => h a (List.mem_cons_of_mem x ha))]
    rfl

theorem entryFixed_length {e : Entry} (hoid : e.oid.length = 20) :
    (entryFixed e).length = 62 := by
  simp [entryFixed, be32, be16, hoid]

theorem serialize_decomp (e : Entry) :
    Entry.serialize e = entryFixed e ++
      (e.path ++ 0 :: List.replicate (padTo8 (entryBody e).length) 0) := by
  simp [Entry.serialize, entryBody, entryFixed, List.append_assoc]

theorem entryBody_length {e : Entry} (hoid : e.oid.length = 20) :
    (entryBody e).length = 63 + e.path.length := by
  simp [entryBody, be32, be16, hoid]
  omega

theorem serialize_length {e : Entry} (hoid : e.oid.length = 20) :
    (Entry.serialize e).length
      = 63 + e.path.length + padTo8 (entryBody e).length := by
  simp [Entry.serialize, entryBody_length hoid]

theorem padTo8_lt (len : Nat) : padTo8 len < 8 := by
  unfold padTo8
  omega

theorem serialize_length_mod8 {e : Entry} (hoid : e.oid.length = 20) :
    (Entry.serialize e).length % 8 = 0 := by
  rw [serialize_length hoid]
  unfold padTo8
  rw [← entryBody_length hoid]
  omega

theorem serialize_length_ge {e : Entry} (hoid : e.oid.length = 20) :
    64 ≤ (Entry.serialize e).length := by
  have h1 := serialize_length hoid
  have h2 := serialize_length_mod8 hoid
  omega

theorem entryFixed_assoc (e : Entry) (tail : List Nat) :
    entryFixed e ++ tail = be32 e.ctime ++ (be32 e.ctime_nsec ++ (be32 e.mtime ++
      (be32 e.mtime_nsec ++ (be32 e.dev ++ (be32 e.ino ++ (be32 e.mode ++
      (be32 e.uid ++ (be32 e.gid ++ (be32 e.size ++ (e.oid ++
      (be16 e.flags ++ tail))))))))))) := by
  simp [entryFixed, List.append_assoc]

theorem parse_fixed_chain (e : Entry) (tail : List Nat) (hwf : wfEntry e) :
    parse_entry (entryFixed e ++ tail) = (pTakeUntilNul tail).bind (fun path r13 =>
      (pNulRun r13).bind (fun _ r14 =>
        PR.ok { ctime := e.ctime, ctime_nsec := e.ctime_nsec, mtime := e.mtime,
                mtime_nsec := e.mtime_nsec, dev := e.dev, ino := e.ino,
                mode := e.mode, uid := e.uid, gid := e.gid, size := e.size,
                oid := e.oid, flags := e.flags, path := path } r14)) := by
  obtain ⟨hct, hctn, hmt, hmtn, hdev, hino, hmode, huid, hgid, hsz, hflags, hoid, hpb⟩ := hwf
  rw [entryFixed_assoc]
  unfold parse_entry
  rw [pBe32_be32 _ _ hct]
  simp only [PR.bind]
  rw [pBe32_be32 _ _ hctn]
  simp only [PR.bind]
  rw [pBe32_be32 _ _ hmt]
  simp only [PR.bind]
  rw [pBe32_be32 _ _ hmtn]
  simp only [PR.bind]
  rw [pBe32_be32 _ _ hdev]
  simp only [PR.bind]
  rw [pBe32_be32 _ _ hino]
  simp only [PR.bind]
  rw [pBe32_be32 _ _ hmode]
  simp only [PR.bind]
  rw [pBe32_be32 _ _ huid]
  simp only [PR.bind]
  rw [pBe32_be32 _ _ hgid]
  simp only [PR.bind]
  rw [pBe32_be32 _ _ hsz]
  simp only [PR.bind]
  rw [pTake_exact _ _ _ hoid]
  simp only [PR.bind]
  rw [pBe16_be16 _ _ hflags]

theorem parse_entry_serialize (e : Entry) (hwf : wfEntry e) :
    parse_entry (Entry.serialize e) = .ok e [] := by
  have hpb := hwf.2.2.2.2.2.2.2.2.2.2.2.2
  rw [serialize_decomp, parse_fixed_chain e _ hwf]
  rw [show (0 : Nat) :: List.replicate (padTo8 (entryBody e).length) 0
      = [] ++ 0 :: List.replicate (padTo8 (entryBody e).length) 0 from rfl]
  rw [show e.path ++ ([] ++ 0 :: List.replicate (padTo8 (entryBody e).length) 0)
      = e.path ++ 0 :: List.replicate (padTo8 (entryBody e).length) 0 from by simp]
  rw [pTakeUntilNul_hit e.path _ (fun b hb => by
    have := hpb b hb
    omega)]
  simp only [PR.bind]
  rw [show (0 : Nat) :: List.replicate (padTo8 (entryBody e).length) 0
      = List.replicate (padTo8 (entryBody e).length + 1) 0 from by
    rw [List.replicate_succ]]
  rw [pNulRun_exact _ (by omega) (by have := padTo8_lt (entryBody e).length; omega)]

theorem parse_entry_partial (e : Entry) (rest : List Nat) (L : Nat)
    (hwf : wfEntry e) (h62 : 62 ≤ L) (hle : L ≤ 62 + e.path.length) :
    parse_entry ((Entry.serialize e ++ rest).take L) = .incomplete := by
  have hoid := hwf.2.2.2.2.2.2.2.2.2.2.2.1
  have hpb := hwf.2.2.2.2.2.2.2.2.2.2.2.2
  have hfl := entryFixed_length hoid
  have hser : Entry.serialize e ++ rest
      = entryFixed e ++ (e.path ++
          (0 :: List.replicate (padTo8 (entryBody e).length) 0 ++ rest)) := by
    rw [serialize_decomp]
    simp [List.append_assoc]
  have htake : (Entry.serialize e ++ rest).take L
      = entryFixed e ++ e.path.take (L - 62) := by
    rw [hser, List.take_append_eq_append_take]
    rw [List.take_of_length_le (by omega)]
    rw [hfl]
    rw [List.take_append_of_le_length (by omega)]
  rw [htake, parse_fixed_chain e _ hwf]
  rw [pTakeUntilNul_miss _ (fun b hb => by
    have := hpb b (List.mem_of_mem_take hb)
    omega)]
  rfl

theorem entry_loop_serialize (e : Entry) (hwf : wfEntry e) :
    ∀ (k L : Nat) (rest h0 : List Nat) (fuel : Nat),
      L + 8 * k = (Entry.serialize e).length → 64 ≤ L → k < fuel →
      entry_loop fuel ((Entry.serialize e ++ rest).take L)
        ⟨(Entry.serialize e ++ rest).drop L,
         h0 ++ (Entry.serialize e ++ rest).take L⟩
        = .ok (e, ⟨rest, h0 ++ Entry.serialize e⟩) := by
  intro k
  induction k with
  | zero =>
    intro L rest h0 fuel hL h64 hfuel
    cases fuel with
    | zero => omega
    | succ f =>
      have hLs : L = (Entry.serialize e).length := by omega
      have htake : (Entry.serialize e ++ rest).take L = Entry.serialize e := by
        rw [hLs]
        exact List.take_left _ _
      have hdrop : (Entry.serialize e ++ rest).drop L = rest := by
        rw [hLs]
        exact List.drop_left _ _
      rw [htake, hdrop]
      simp only [entry_loop]
      rw [parse_entry_serialize e hwf]
      rfl
  | succ k ih =>
    intro L rest h0 fuel hL h64 hfuel
    cases fuel with
    | zero => omega
    | succ f =>
      have hoid := hwf.2.2.2.2.2.2.2.2.2.2.2.1
      have hserlen := serialize_length hoid
      have hpad := padTo8_lt (entryBody e).length
      have hple : L ≤ 62 + e.path.length := by omega
      have hdlen : 8 ≤ ((Entry.serialize e ++ rest).drop L).length := by
        simp only [List.length_drop, List.length_append]
        omega
      have htk : (Entry.serialize e ++ rest).take L ++
          ((Entry.serialize e ++ rest).drop L).take 8
          = (Entry.serialize e ++ rest).take (L + 8) :=
        (List.take_add _ L 8).symm
      have hdd : ((Entry.serialize e ++ rest).drop L).drop 8
          = (Entry.serialize e ++ rest).drop (L + 8) :=
        List.drop_drop 8 L _
      have hh : h0 ++ (Entry.serialize e ++ rest).take L ++
          ((Entry.serialize e ++ rest).drop L).take 8
          = h0 ++ (Entry.serialize e ++ rest).take (L + 8) := by
        rw [List.append_assoc, htk]
      simp only [entry_loop,
        parse_entry_partial e rest L hwf (by omega) hple,
        CFile.read_exact, hdlen, if_true]
      rw [htk, hdd, hh]
      exact ih (L + 8) rest h0 f (by omega) (by omega) (by omega)

theorem length_le_length_flatten : ∀ (entries : List Entry),
    (∀ e ∈ entries, wfEntry e) →
    entries.length ≤ ((entries.map Entry.serialize).flatten).length
  | [], _ => by simp
  | e :: es, h => by
    have hoid := (h e (List.mem_cons_self e es)).2.2.2.2.2.2.2.2.2.2.2.1
    have h64 := serialize_length_ge hoid
    have ih := length_le_length_flatten es (fun x hx => h x (List.mem_cons_of_mem e hx))
    simp only [List.map_cons, List.flatten_cons, List.length_cons, List.length_append]
    omega

theorem read_entries_serialized :
    ∀ (todo acc : List Entry) (trailer h0 : List Nat) (fuel : Nat),
      (∀ x ∈ todo, wfEntry x) →
      List.Pairwise (fun a b => pathCmp a.path b.path = .lt) todo →
      (∀ a ∈ acc, ∀ x ∈ todo, pathCmp a.path x.path = .lt) →
      todo.length < fuel →
      read_entries fuel (acc.length + todo.length) acc
        ⟨(todo.map Entry.serialize).flatten ++ trailer, h0⟩
        = .ok (acc ++ todo, ⟨trailer, h0 ++ (todo.map Entry.serialize).flatten⟩)
  | [], acc, trailer, h0, fuel, _, _, _, hfuel => by
    cases fuel with
    | zero => omega
    | succ f =>
      simp only [read_entries, List.length_nil, Nat.add_zero]
      rw [if_neg (lt_irrefl _)]
      simp
  | e :: todo, acc, trailer, h0, fuel, hwf, hsorted, hacc, hfuel => by
    cases fuel with
    | zero => omega
    | succ f =>
      have hwfe : wfEntry e := hwf e (List.mem_cons_self e todo)
      have hoid := hwfe.2.2.2.2.2.2.2.2.2.2.2.1
      have hser64 := serialize_length_ge hoid
      have hmod := serialize_length_mod8 hoid
      have hstream : (((e :: todo).map Entry.serialize).flatten ++ trailer)
          = Entry.serialize e ++
            ((todo.map Entry.serialize).flatten ++ trailer) := by
        simp [List.append_assoc]
      have hlen64 : 64 ≤ (Entry.serialize e ++
          ((todo.map Entry.serialize).flatten ++ trailer)).length := by
        simp only [List.length_append]
        omega
      obtain ⟨kk, hkk⟩ : ∃ kk, 64 + 8 * kk = (Entry.serialize e).length := by
        refine ⟨((Entry.serialize e).length - 64) / 8, ?_⟩
        omega
      have hfe : kk < ((Entry.serialize e ++
          ((todo.map Entry.serialize).flatten ++ trailer)).drop 64).length + 1 := by
        simp only [List.length_drop, List.length_append]
        omega
      have hloop := entry_loop_serialize e hwfe kk 64
        ((todo.map Entry.serialize).flatten ++ trailer) h0
        (((Entry.serialize e ++
          ((todo.map Entry.serialize).flatten ++ trailer)).drop 64).length + 1)
        (by omega) (le_refl 64) hfe
      have hpair := List.pairwise_cons.mp hsorted
      have hins : insertSorted acc e = acc ++ [e] :=
        insertSorted_append acc e
          (fun a ha => hacc a ha e (List.mem_cons_self e todo))
      have hcnt : acc.length + (e :: todo).length
          = (acc ++ [e]).length + todo.length := by
        simp only [List.length_cons, List.length_append, List.length_nil]
        omega
      simp only [read_entries]
      rw [if_pos (by simp)]
      rw [hstream]
      simp only [CFile.read_exact, hlen64, if_true]
      rw [hloop]
      simp only [hins]
      rw [hcnt]
      rw [read_entries_serialized todo (acc ++ [e]) trailer (h0 ++ Entry.serialize e) f
        (fun x hx => hwf x (List.mem_cons_of_mem e hx))
        hpair.2
        (fun a ha x hx => by
          rcases List.mem_append.mp ha with ha2 | ha2
          · exact hacc a ha2 x (List.mem_cons_of_mem e hx)
          · rcases List.mem_singleton.mp ha2 with rfl
            exact hpair.1 x hx)
        (by simpa using hfuel)]
      simp [List.append_assoc]

theorem verify_checksum_trailer (s : List Nat) :
    CFile.verify_checksum ⟨sha1 s, s⟩ = some (true, ⟨[], s⟩) := by
  unfold CFile.verify_checksum CFile.hash
  simp only []
  rw [if_pos (le_refl _), List.take_length, List.drop_length]
  simp

/-- C2: For every finite set of index entries with distinct paths (in
ascending path order, with the field ranges of the Rust types), emitting
the index — DIRC version-2 header with entry count, the entries in
order, a 20-byte SHA-1 trailer — and parsing the emitted bytes back
yields exactly the same entries, stat fields, OID, flags and path
preserved, with the checksum verification succeeding. -/
theorem index_serialize_parse_roundtrip (entries : List Entry)
    (hwf : ∀ e ∈ entries, wfEntry e)
    (hsorted : List.Pairwise (fun a b => pathCmp a.path b.path = .lt) entries)
    (hcount : entries.length < U32) :
    load_entries (write_updates_bytes entries) = .ok entries := by
  have h12len : (INDEX_SIGNATURE ++ be32 INDEX_VERSION ++
      be32 entries.length).length = 12 := by
    simp [INDEX_SIGNATURE, ascii, be32]
  have hSdef : serialize_entries entries
      = (INDEX_SIGNATURE ++ be32 INDEX_VERSION ++ be32 entries.length) ++
        (entries.map Entry.serialize).flatten := rfl
  have hemit : write_updates_bytes entries
      = serialize_entries entries ++ sha1 (serialize_entries entries) := rfl
  have htake12 : (serialize_entries entries ++ sha1 (serialize_entries entries)).take 12
      = INDEX_SIGNATURE ++ be32 INDEX_VERSION ++ be32 entries.length := by
    rw [hSdef, List.append_assoc]
    exact List.take_left' h12len
  have hdrop12 : (serialize_entries entries ++ sha1 (serialize_entries entries)).drop 12
      = (entries.map Entry.serialize).flatten ++ sha1 (serialize_entries entries) := by
    rw [hSdef, List.append_assoc]
    exact List.drop_left' h12len
  have hbufassoc : (INDEX_SIGNATURE ++ be32 INDEX_VERSION ++ be32 entries.length)
      ++ List.replicate (12 - (INDEX_SIGNATURE ++ be32 INDEX_VERSION ++
        be32 entries.length).length) 0
      = INDEX_SIGNATURE ++ (be32 INDEX_VERSION ++ (be32 entries.length ++ [])) := by
    rw [h12len]
    simp [List.append_assoc]
  have hsig4 : (INDEX_SIGNATURE).length = 4 := by
    simp [INDEX_SIGNATURE, ascii]
  have hheader : read_header ⟨write_updates_bytes entries, []⟩
      = .ok (entries.length,
          ⟨(entries.map Entry.serialize).flatten ++ sha1 (serialize_entries entries),
           INDEX_SIGNATURE ++ be32 INDEX_VERSION ++ be32 entries.length⟩) := by
    unfold read_header
    simp only [hemit, CFile.read, htake12, hdrop12, hbufassoc]
    rw [pTake_exact _ _ _ hsig4]
    simp only [PR.bind]
    rw [pBe32_be32 _ _ (by unfold U32 INDEX_VERSION; omega)]
    simp only [PR.bind]
    rw [pBe32_be32 _ _ hcount]
    simp only [PR.bind]
    rw [if_neg (by simp)]
    rw [if_neg (by simp [INDEX_VERSION])]
    rw [if_neg (by simp)]
    simp [List.nil_append]
  have hfuel : entries.length <
      ((entries.map Entry.serialize).flatten ++
        sha1 (serialize_entries entries)).length + 1 := by
    have := length_le_length_flatten entries hwf
    simp only [List.length_append]
    omega
  have hentries := read_entries_serialized entries [] (sha1 (serialize_entries entries))
    (INDEX_SIGNATURE ++ be32 INDEX_VERSION ++ be32 entries.length)
    (((entries.map Entry.serialize).flatten ++
      sha1 (serialize_entries entries)).length + 1)
    hwf hsorted (by simp) hfuel
  simp only [List.length_nil, Nat.zero_add, List.nil_append] at hentries
  unfold load_entries
  simp only [hheader]
  simp only [hentries]
  rw [show (INDEX_SIGNATURE ++ be32 INDEX_VERSION ++ be32 entries.length) ++
      (entries.map Entry.serialize).flatten = serialize_entries entries from rfl]
  simp only [verify_checksum_trailer (serialize_entries entries)]
  simp

/-- Witness for the round-trip theorem: a single one-byte-path entry
with well-formed fields survives the emit-parse cycle. -/
theorem index_serialize_parse_roundtrip_witness :
    load_entries (write_updates_bytes [entryAt [120]]) = .ok [entryAt [120]] :=
  index_serialize_parse_roundtrip [entryAt [120]]
    (by
      intro e he
      rcases List.mem_singleton.mp he with rfl
      refine ⟨by decide, by decide, by decide, by decide, by decide, by decide,
        by decide, by decide, by decide, by decide, by decide, by decide, ?_⟩
      decide)
    (by simp)
    (by decide)

/-- Witness for the load theorem: twelve NUL bytes make load_entries
fail on the signature, and the failure propagates through load. -/
theorem index_load_swallows_open_errors_witness :
    Index.load (.ok (List.replicate 12 0)) = .error (ascii "Signature mismatch") :=
  index_load_swallows_open_errors.2.1 (List.replicate 12 0)
    (ascii "Signature mismatch") (by decide)

/-- Witness for the commit-order theorem: a commit of an empty index
with an empty message, the build hypothesis discharged by rfl. -/
theorem commit_stores_before_empty_message_check_witness :
    commit_execute [] [] [] ⟨[], [], 0, []⟩ [] =
      ([] ++ (traverseNode (.tree [] [])).map TNode.oidOf ++
        [Commit.oid (read_head []) (Tree.oid [] []) ⟨[], [], 0, []⟩ []],
       [], .error (ascii "Empty message")) :=
  commit_stores_before_empty_message_check [] [] [] ⟨[], [], 0, []⟩ [] [] rfl

theorem bytesCmp_self_append : ∀ (s t : List Nat), t ≠ [] →
    bytesCmp s (s ++ t) = .lt
  | [], t, h => by
    cases t with
    | nil => exact absurd rfl h
    | cons a r => simp [bytesCmp]
  | a :: s, t, h => by
    simp only [List.cons_append, bytesCmp, Nat.compare_eq_eq.mpr rfl]
    exact bytesCmp_self_append s t h

theorem bytesCmp_append_self : ∀ (s t : List Nat), t ≠ [] →
    bytesCmp (s ++ t) s = .gt
  | [], t, h => by
    cases t with
    | nil => exact absurd rfl h
    | cons a r => simp [bytesCmp]
  | a :: s, t, h => by
    simp only [List.cons_append, bytesCmp, Nat.compare_eq_eq.mpr rfl]
    exact bytesCmp_append_self s t h

theorem joinSlash_append : ∀ (xs ys : List (List Nat)), xs ≠ [] → ys ≠ [] →
    joinSlash (xs ++ ys) = joinSlash xs ++ 47 :: joinSlash ys
  | [], _, hx, _ => absurd rfl hx
  | [x], ys, _, hy => by
    cases ys with
    | nil => exact absurd rfl hy
    | cons y ys2 => simp [joinSlash]
  | x1 :: x2 :: rest, ys, _, hy => by
    have ih := joinSlash_append (x2 :: rest) ys (by simp) hy
    simp only [List.cons_append] at ih ⊢
    simp only [joinSlash]
    rw [ih]
    simp [List.append_assoc]

theorem add_entry_fresh :
    ∀ (dirs : List (List Nat)) (name : List Nat) (f : TreeFileRec),
      (∀ c ∈ dirs, c ≠ []) → f.rel_path.getLast? = some name →
      add_entry dirs [] [] f = .ok (chainOf dirs name f)
  | [], name, f, _, hlast => by
    simp [add_entry, hlast, updateChild, chainOf]
  | d :: rest, name, f, hcanon, hlast => by
    have hd : ¬ d = [] := hcanon d (List.mem_cons_self d rest)
    have ih := add_entry_fresh rest name f
      (fun c hc => hcanon c (List.mem_cons_of_mem d hc)) hlast
    simp [add_entry, hd, lookupChild, updateChild, ih, chainOf]

theorem add_entry_hits_file :
    ∀ (dirs : List (List Nat)) (name : List Nat) (extra : List (List Nat))
      (f q : TreeFileRec),
      (∀ c ∈ dirs, c ≠ []) → name ≠ [] →
      add_entry (dirs ++ name :: extra) (chainOf dirs name f).1 (chainOf dirs name f).2 q
        = .error (ascii "A parent of " ++ joinSlash q.rel_path ++
            ascii " is not a directory")
  | [], name, extra, f, q, _, hname => by
    simp [add_entry, chainOf, hname, lookupChild]
  | d :: rest, name, extra, f, q, hcanon, hname => by
    have hd : ¬ d = [] := hcanon d (List.mem_cons_self d rest)
    have ih := add_entry_hits_file rest name extra f q
      (fun c hc => hcanon c (List.mem_cons_of_mem d hc)) hname
    simp [add_entry, chainOf, hd, lookupChild, ih]

/-- C5: During a single tree build, whenever a name is claimed both as a
file (at path dirs/name) and as a directory (by a record at path
dirs/name/extra.../qname), in either order the records are supplied,
the later insertion — after the build sorts its input — fails with the
error "A parent of X is not a directory", X being the path that uses
the name as a directory. -/
theorem tree_build_file_directory_conflict :
    ∀ (dirs : List (List Nat)) (name : List Nat) (extra : List (List Nat))
      (qname : List Nat) (oid1 oid2 : List Nat) (m1 m2 : Nat),
      (∀ c ∈ dirs, c ≠ []) → name ≠ [] →
      (Tree.build [⟨dirs ++ [name], oid1, m1⟩,
          ⟨(dirs ++ [name]) ++ extra ++ [qname], oid2, m2⟩]
        = .error (ascii "A parent of " ++
            joinSlash ((dirs ++ [name]) ++ extra ++ [qname]) ++
            ascii " is not a directory")) ∧
      (Tree.build [⟨(dirs ++ [name]) ++ extra ++ [qname], oid2, m2⟩,
          ⟨dirs ++ [name], oid1, m1⟩]
        = .error (ascii "A parent of " ++
            joinSlash ((dirs ++ [name]) ++ extra ++ [qname]) ++
            ascii " is not a directory")) := by
  intro dirs name extra qname oid1 oid2 m1 m2 hdirs hname
  have hassoc : ((dirs ++ [name]) ++ extra) ++ [qname]
      = dirs ++ name :: (extra ++ [qname]) := by
    simp
  have hjoin : joinSlash (dirs ++ name :: (extra ++ [qname]))
      = joinSlash (dirs ++ [name]) ++ 47 :: joinSlash (extra ++ [qname]) := by
    have h2 : (dirs ++ [name]) ++ (extra ++ [qname])
        = dirs ++ name :: (extra ++ [qname]) := by
      simp
    rw [← h2]
    exact joinSlash_append _ _ (by simp) (by simp)
  have hcmp : bytesCmp (joinSlash (dirs ++ [name]))
      (joinSlash (dirs ++ name :: (extra ++ [qname]))) = .lt := by
    rw [hjoin]
    exact bytesCmp_self_append _ _ (by simp)
  have hcmp2 : bytesCmp (joinSlash (dirs ++ name :: (extra ++ [qname])))
      (joinSlash (dirs ++ [name])) = .gt := by
    rw [hjoin]
    exact bytesCmp_append_self _ _ (by simp)
  have hstep1 : add_entry dirs [] []
      (⟨dirs ++ [name], oid1, m1⟩ : TreeFileRec)
      = .ok (chainOf dirs name ⟨dirs ++ [name], oid1, m1⟩) :=
    add_entry_fresh dirs name _ hdirs (by simp [List.getLast?_concat])
  have hdropP : (dirs ++ [name]).dropLast = dirs := List.dropLast_concat
  have hdropQ : (dirs ++ name :: (extra ++ [qname])).dropLast
      = dirs ++ name :: extra := by
    rw [← hassoc, List.dropLast_concat]
    simp
  have hstep2 : add_entry (dirs ++ name :: extra)
      (chainOf dirs name ⟨dirs ++ [name], oid1, m1⟩).1
      (chainOf dirs name ⟨dirs ++ [name], oid1, m1⟩).2
      (⟨dirs ++ name :: (extra ++ [qname]), oid2, m2⟩ : TreeFileRec)
      = .error (ascii "A parent of " ++
          joinSlash (dirs ++ name :: (extra ++ [qname])) ++
          ascii " is not a directory") :=
    add_entry_hits_file dirs name extra _ _ hdirs hname
  simp only [hassoc]
  constructor
  · have hsort : sortByPathString
        [⟨dirs ++ [name], oid1, m1⟩,
         ⟨dirs ++ name :: (extra ++ [qname]), oid2, m2⟩]
        = [⟨dirs ++ [name], oid1, m1⟩,
           ⟨dirs ++ name :: (extra ++ [qname]), oid2, m2⟩] := by
      simp only [sortByPathString, insertByPathString, pathStringLe, hcmp]
      rfl
    rw [Tree.build, hsort]
    simp only [build_loop, hdropP, hstep1, hdropQ, hstep2]
  · have hsort : sortByPathString
        [⟨dirs ++ name :: (extra ++ [qname]), oid2, m2⟩,
         ⟨dirs ++ [name], oid1, m1⟩]
        = [⟨dirs ++ [name], oid1, m1⟩,
           ⟨dirs ++ name :: (extra ++ [qname]), oid2, m2⟩] := by
      simp only [sortByPathString, insertByPathString, pathStringLe, hcmp2]
      rfl
    rw [Tree.build, hsort]
    simp only [build_loop, hdropP, hstep1, hdropQ, hstep2]

theorem lookupAssoc_childTravs : ∀ (en : List (List Nat × TNode)) (k : List Nat),
    lookupAssoc (childTravs en) k = Option.map traverseNode (lookupAssoc en k)
  | [], _ => rfl
  | (k0, c) :: rest, k => by
    by_cases h : k0 = k
    · simp [childTravs, lookupAssoc, h]
    · simp only [childTravs, lookupAssoc, if_neg h]
      exact lookupAssoc_childTravs rest k

theorem lookupAssoc_childInfos : ∀ (en : List (List Nat × TNode)) (k : List Nat),
    lookupAssoc (childInfos en) k = Option.map childInfo (lookupAssoc en k)
  | [], _ => rfl
  | (k0, c) :: rest, k => by
    by_cases h : k0 = k
    · simp [childInfos, lookupAssoc, h]
    · simp only [childInfos, lookupAssoc, if_neg h]
      exact lookupAssoc_childInfos rest k

theorem lookupAssoc_mem {α : Type} : ∀ {en : List (List Nat × α)} {k : List Nat}
    {c : α}, lookupAssoc en k = some c → (k, c) ∈ en
  | [], _, _, h => by simp [lookupAssoc] at h
  | (k0, c0) :: rest, k, c, h => by
    by_cases hk : k0 = k
    · subst hk
      simp only [lookupAssoc, if_true, eq_self_iff_true] at h
      injection h with h2
      rw [← h2]
      exact List.mem_cons_self _ _
    · simp only [lookupAssoc, if_neg hk] at h
      exact List.mem_cons_of_mem _ (lookupAssoc_mem h)

theorem mem_lookupAssoc {α : Type} : ∀ {en : List (List Nat × α)} {k : List Nat}
    {c : α}, (en.map Prod.fst).Nodup → (k, c) ∈ en → lookupAssoc en k = some c
  | [], _, _, _, h => by simp at h
  | (k0, c0) :: rest, k, c, hnodup, h => by
    simp only [List.map_cons, List.nodup_cons] at hnodup
    rcases List.mem_cons.mp h with heq | hmem
    · injection heq with h1 h2
      subst h1
      subst h2
      simp [lookupAssoc]
    · have hk : ¬ k0 = k := by
        intro he
        subst he
        exact hnodup.1 (List.mem_map.mpr ⟨(k0, c), hmem, rfl⟩)
      simp only [lookupAssoc, if_neg hk]
      exact mem_lookupAssoc hnodup.2 hmem

theorem nodeSize_pos : ∀ t : TNode, 1 ≤ nodeSize t
  | .file _ => le_refl 1
  | .tree _ en => by
    simp [nodeSize]

theorem childSizes_of_mem : ∀ {en : List (List Nat × TNode)} {k : List Nat}
    {c : TNode}, (k, c) ∈ en → nodeSize c ≤ childSizes en
  | [], _, _, h => by simp at h
  | (k0, c0) :: rest, k, c, h => by
    rcases List.mem_cons.mp h with heq | hmem
    · injection heq with h1 h2
      subst h2
      simp [childSizes]
    · have := childSizes_of_mem hmem
      have := nodeSize_pos c0
      simp only [childSizes]
      omega

theorem traverseNode_tree_eq (ko : List (List Nat)) (en : List (List Nat × TNode)) :
    traverseNode (.tree ko en) =
      (ko.map (fun k =>
        match lookupAssoc (childTravs en) k with
        | some tl => tl
        | none => [])).flatten ++ [.tree ko en] := by
  rw [traverseNode]

theorem tree_mem_traverseNode_self (ko : List (List Nat)) (en : List (List Nat × TNode)) :
    (TNode.tree ko en) ∈ traverseNode (.tree ko en) := by
  rw [traverseNode_tree_eq]
  exact List.mem_append_right _ (List.mem_cons_self _ _)

theorem content_eq_specPayload (ko : List (List Nat)) (en : List (List Nat × TNode)) :
    Tree.content ko en = specPayload ko en := by
  unfold Tree.content renderContent specPayload
  congr 1
  induction ko with
  | nil => rfl
  | cons k ks ih =>
    simp only [List.map_cons, List.cons.injEq]
    refine ⟨?_, by simpa using ih⟩
    rw [lookupAssoc_childInfos]
    rcases hl : lookupAssoc en k with _ | c
    · rfl
    · cases c with
      | file f => rfl
      | tree ko2 en2 => rfl

theorem traverse_postorder_aux :
    ∀ (n : Nat) (t : TNode), nodeSize t ≤ n → WfNode t →
      ∀ (ku : List (List Nat)) (eu : List (List Nat × TNode)),
        (TNode.tree ku eu) ∈ traverseNode t →
        ∀ (k : List Nat) (ko2 : List (List Nat)) (en2 : List (List Nat × TNode)),
          (k, TNode.tree ko2 en2) ∈ eu →
          visitedBefore (traverseNode t) (.tree ko2 en2) (.tree ku eu) := by
  intro n
  induction n with
  | zero =>
    intro t hsize
    have := nodeSize_pos t
    omega
  | succ n ihn =>
    intro t hsize hwf ku eu hmem k ko2 en2 hchild
    cases hwf with
    | file f => simp [traverseNode] at hmem
    | tree ko en hko hnodup hch =>
      rw [traverseNode_tree_eq] at hmem
      rcases List.mem_append.mp hmem with hbody | hself
      · obtain ⟨lst, hlst, humem⟩ := List.mem_flatten.mp hbody
        obtain ⟨kk, hkk, hlsteq⟩ := List.mem_map.mp hlst
        rcases hlook : lookupAssoc (childTravs en) kk with _ | tl
        · rw [← hlsteq] at humem
          simp only [hlook] at humem
          simp at humem
        · obtain ⟨c, hcl, hctl⟩ := Option.map_eq_some'.mp
            ((lookupAssoc_childTravs en kk).symm.trans hlook)
          have hcmem : (kk, c) ∈ en := lookupAssoc_mem hcl
          have hwfc : WfNode c := hch (kk, c) hcmem
          have hsz : nodeSize c ≤ n := by
            have h1 := childSizes_of_mem hcmem
            simp only [nodeSize] at hsize
            omega
          have humc : (TNode.tree ku eu) ∈ traverseNode c := by
            rw [hctl]
            rw [← hlsteq] at humem
            simpa only [hlook] using humem
          obtain ⟨m1, m2, hm, hc2, hu⟩ :=
            ihn c hsz hwfc ku eu humc k ko2 en2 hchild
          obtain ⟨s, t2, hkosplit⟩ := List.append_of_mem hkk
          have hfkk : (match lookupAssoc (childTravs en) kk with
              | some tl => tl
              | none => ([] : List TNode)) = m1 ++ m2 := by
            rw [hlook]
            exact hctl ▸ hm
          refine ⟨((s.map (fun k =>
              match lookupAssoc (childTravs en) k with
              | some tl => tl
              | none => [])).flatten ++ m1),
            m2 ++ ((t2.map (fun k =>
              match lookupAssoc (childTravs en) k with
              | some tl => tl
              | none => [])).flatten ++ [TNode.tree ko en]), ?_, ?_, ?_⟩
          · rw [traverseNode_tree_eq, hkosplit]
            simp only [List.map_append, List.map_cons, List.flatten_append,
              List.flatten_cons, hfkk, List.append_assoc]
          · exact List.mem_append.mpr (Or.inr hc2)
          · exact List.mem_append.mpr (Or.inl hu)
      · have heq := List.mem_singleton.mp hself
        cases heq
        have hkmem : k ∈ ku := by
          rw [hko]
          exact List.mem_map.mpr ⟨(k, .tree ko2 en2), hchild, rfl⟩
        have hlookup : lookupAssoc eu k = some (.tree ko2 en2) :=
          mem_lookupAssoc hnodup hchild
        have hfk : (match lookupAssoc (childTravs eu) k with
            | some tl => tl
            | none => ([] : List TNode)) = traverseNode (.tree ko2 en2) := by
          rw [lookupAssoc_childTravs, hlookup]
          rfl
        refine ⟨(ku.map (fun k =>
            match lookupAssoc (childTravs eu) k with
            | some tl => tl
            | none => [])).flatten, [TNode.tree ku eu], ?_, ?_, ?_⟩
        · rw [traverseNode_tree_eq]
        · refine List.mem_flatten.mpr ⟨traverseNode (.tree ko2 en2), ?_,
            tree_mem_traverseNode_self ko2 en2⟩
          rw [← hfk]
          exact List.mem_map.mpr ⟨k, hkmem, rfl⟩
        · exact List.mem_singleton.mpr rfl

/-- C6: For every built tree, traverse visits nodes in post-order — the
persistence callback runs on every subtree before it runs on that
subtree's parent, and last on the root — and each node's payload is the
concatenation, iterating children in the recorded first-seen name
order, of records "mode SP name NUL 20-byte-raw-OID", where file modes
are 100644 or 100755 and every subtree entry uses the fixed mode
40000. -/
theorem tree_traverse_postorder_and_payload :
    (∀ (ko : List (List Nat)) (en : List (List Nat × TNode)),
      (traverseNode (.tree ko en)).getLast? = some (.tree ko en)) ∧
    (∀ (t : TNode), WfNode t →
      ∀ (ku : List (List Nat)) (eu : List (List Nat × TNode)),
        (TNode.tree ku eu) ∈ traverseNode t →
        ∀ (k : List Nat) (ko2 : List (List Nat)) (en2 : List (List Nat × TNode)),
          (k, TNode.tree ko2 en2) ∈ eu →
          visitedBefore (traverseNode t) (.tree ko2 en2) (.tree ku eu)) ∧
    (∀ (ko : List (List Nat)) (en : List (List Nat × TNode)),
      Tree.content ko en = specPayload ko en) ∧
    (∀ f : TreeFileRec, (childInfo (.file f)).1 = ascii "100644" ∨
      (childInfo (.file f)).1 = ascii "100755") ∧
    (∀ (ko : List (List Nat)) (en : List (List Nat × TNode)),
      (childInfo (.tree ko en)).1 = ascii "40000") := by
  refine ⟨?_, ?_, content_eq_specPayload, ?_, fun _ _ => rfl⟩
  · intro ko en
    rw [traverseNode_tree_eq]
    exact List.getLast?_concat _
  · intro t hwf
    exact traverse_postorder_aux (nodeSize t) t (le_refl _) hwf
  · intro f
    simp only [childInfo, TreeFileRec.mode_str]
    split
    · exact Or.inr rfl
    · exact Or.inl rfl

/-- Witness for the traverse theorem: a root holding one subtree named
"a"; the subtree is visited before the root. -/
theorem tree_traverse_postorder_and_payload_witness :
    visitedBefore (traverseNode (.tree [[97]] [([97], TNode.tree [] [])]))
      (.tree [] []) (.tree [[97]] [([97], TNode.tree [] [])]) := by
  have hwf1 : WfNode (.tree [] []) := WfNode.tree [] [] rfl (by simp) (by simp)
  have hwf : WfNode (.tree [[97]] [([97], TNode.tree [] [])]) := by
    refine WfNode.tree _ _ rfl (by simp) ?_
    intro kc hkc
    rcases List.mem_singleton.mp hkc with rfl
    exact hwf1
  exact tree_traverse_postorder_and_payload.2.1 _ hwf _ _
    (tree_mem_traverseNode_self _ _) [97] [] [] (List.mem_cons_self _ _)

/-- Witness for the tree-conflict theorem: the records a and a/b, in
both orders. -/
theorem tree_build_file_directory_conflict_witness :
    (Tree.build [⟨[] ++ [[97]], [], 0⟩, ⟨([] ++ [[97]]) ++ [] ++ [[98]], [], 0⟩]
      = .error (ascii "A parent of " ++ joinSlash (([] ++ [[97]]) ++ [] ++ [[98]]) ++
          ascii " is not a directory")) ∧
    (Tree.build [⟨([] ++ [[97]]) ++ [] ++ [[98]], [], 0⟩, ⟨[] ++ [[97]], [], 0⟩]
      = .error (ascii "A parent of " ++ joinSlash (([] ++ [[97]]) ++ [] ++ [[98]]) ++
          ascii " is not a directory")) :=
  tree_build_file_directory_conflict [] [97] [] [98] [] [] 0 0
    (by decide) (by decide)

end Jit
